import Mathlib

/-!
Verification of the `charms.reactive` endpoints layer
(`src/charms/reactive/endpoints.py`).

The development shallowly embeds the data model of the source file:

* `PyObj` — the JSON-serializable Python values exchanged over relations
  (floats are outside the model);
* `dumps` / `loads` — the behaviour of Python's `json.dumps(…, sort_keys=True)`
  and `json.loads`, which `endpoints.py` uses as an external collaborator;
* `UnitDataView` / `JSONUnitDataView` — the raw and JSON-aware data views;
* `CombinedUnitsView` merge logic, `Relation._flush_data`,
  `Endpoint.expand_name` and `Endpoint._manage_flags`.

All definitions are executable; theorems at the end settle the individual
claims about the specification.
-/

set_option maxHeartbeats 1600000

namespace CharmsReactive

/-- JSON-representable Python values: the fragment of Python data that
`endpoints.py` sends through `json.dumps`/`json.loads`.  Python `None`,
`bool`, `int`, `str`, `list` and `dict` (with string keys) are modelled;
floats are outside the model. -/
inductive PyObj : Type where
  | none : PyObj
  | bool (b : Bool) : PyObj
  | int (n : Int) : PyObj
  | str (s : String) : PyObj
  | list (xs : List PyObj) : PyObj
  | dict (xs : List (String × PyObj)) : PyObj

/-- Strong induction on `sizeOf`, used to reason about the nested
inductive `PyObj`. -/
theorem sizeOfRec {α : Type} [SizeOf α] {motive : α → Prop}
    (ih : ∀ a, (∀ b, sizeOf b < sizeOf a → motive b) → motive a) : ∀ a, motive a := by
  have H : ∀ n a, sizeOf a < n → motive a := by
    intro n
    induction n with
    | zero => intro a h; omega
    | succ n IH => exact fun a h => ih a (fun b hb => IH b (by omega))
  exact fun a => H (sizeOf a + 1) a (by omega)

/-- Lexicographic `≤` on character sequences by code point: Python's string
comparison. -/
def charsLe : List Char → List Char → Bool
  | [], _ => true
  | _ :: _, [] => false
  | a :: as, b :: bs =>
    if a.toNat < b.toNat then true
    else if b.toNat < a.toNat then false
    else charsLe as bs

/-- Strict lexicographic `<` on character sequences by code point. -/
def charsLt : List Char → List Char → Bool
  | [], [] => false
  | [], _ :: _ => true
  | _ :: _, [] => false
  | a :: as, b :: bs =>
    if a.toNat < b.toNat then true
    else if b.toNat < a.toNat then false
    else charsLt as bs

/-- Python `a <= b` on strings. -/
def strLe (a b : String) : Bool := charsLe a.data b.data

/-- Python `a < b` on strings. -/
def strLt (a b : String) : Bool := charsLt a.data b.data

theorem charsLe_total : ∀ a b, charsLe a b = true ∨ charsLe b a = true
  | [], _ => by left; rfl
  | _ :: _, [] => by right; rfl
  | a :: as, b :: bs => by
    by_cases h1 : a.toNat < b.toNat
    · left; simp [charsLe, h1]
    · by_cases h2 : b.toNat < a.toNat
      · right; simp [charsLe, h1, h2]
      · have := charsLe_total as bs
        rcases this with h | h
        · left; simpa [charsLe, h1, h2] using h
        · right; simpa [charsLe, h1, h2] using h

theorem charsLe_trans : ∀ a b c, charsLe a b = true → charsLe b c = true →
    charsLe a c = true
  | [], _, _ => by intro _ _; rfl
  | a :: as, [], c => by intro h _; simp [charsLe] at h
  | a :: as, b :: bs, [] => by intro _ h; simp [charsLe] at h
  | a :: as, b :: bs, c :: cs => by
    intro h1 h2
    simp only [charsLe] at h1 h2 ⊢
    split_ifs at h1 h2 ⊢ with g1 g2 g3 g4 g5 g6 <;> try omega
    all_goals try simp_all
    exact charsLe_trans as bs cs h1 h2

/-- Key comparison used by Python's `sorted` on dict items and by
`json.dumps(…, sort_keys=True)`: plain string order on the key. -/
def keyLe {β : Type} (a b : String × β) : Prop := strLe a.1 b.1 = true

instance {β : Type} : DecidableRel (keyLe (β := β)) :=
  fun a b => inferInstanceAs (Decidable (strLe a.1 b.1 = true))

instance {β : Type} : IsTotal (String × β) keyLe :=
  ⟨fun a b => charsLe_total a.1.data b.1.data⟩

instance {β : Type} : IsTrans (String × β) keyLe :=
  ⟨fun a b c h h' => charsLe_trans a.1.data b.1.data c.1.data h h'⟩

/-- Sort an association list by key.  Stable insertion sort, matching the
stability guarantee of Python's `sorted`. -/
def sortByKey {β : Type} (xs : List (String × β)) : List (String × β) :=
  xs.insertionSort keyLe

theorem mem_of_mem_sortByKey {β : Type} {p : String × β} {xs : List (String × β)}
    (h : p ∈ sortByKey xs) : p ∈ xs :=
  (List.mem_insertionSort keyLe).mp h

/-- Recursively sort every dict level of a value by key.  This is the image
of a value under a `dumps`/`loads` round trip. -/
def canon : PyObj → PyObj
  | .none => .none
  | .bool b => .bool b
  | .int n => .int n
  | .str s => .str s
  | .list xs => .list (canonList xs)
  | .dict xs => .dict (sortByKey (canonPairs xs))
where
  canonList : List PyObj → List PyObj
    | [] => []
    | x :: xs => canon x :: canonList xs
  canonPairs : List (String × PyObj) → List (String × PyObj)
    | [] => []
    | (k, v) :: xs => (k, canon v) :: canonPairs xs

/-- Structural boolean equality on `PyObj`. -/
def pyBeq : PyObj → PyObj → Bool
  | .none, .none => true
  | .bool a, .bool b => a == b
  | .int a, .int b => a == b
  | .str a, .str b => a == b
  | .list xs, .list ys => pyBeqList xs ys
  | .dict xs, .dict ys => pyBeqPairs xs ys
  | _, _ => false
where
  pyBeqList : List PyObj → List PyObj → Bool
    | [], [] => true
    | x :: xs, y :: ys => pyBeq x y && pyBeqList xs ys
    | _, _ => false
  pyBeqPairs : List (String × PyObj) → List (String × PyObj) → Bool
    | [], [] => true
    | (k, v) :: xs, (k', v') :: ys => k == k' && pyBeq v v' && pyBeqPairs xs ys
    | _, _ => false

/-- Python `==` on JSON-decoded values: dicts compare as finite maps, which
for duplicate-free dicts is equality of the key-sorted canonical forms.  The
production `data_changed` helper compares values through
`json.dumps(value, sort_keys=True)`, which realizes exactly this
equivalence. -/
def pyEqv (a b : PyObj) : Bool := pyBeq (canon a) (canon b)

/-- Well-formedness of a value as a Python object: every dict level has
duplicate-free keys (Python dicts cannot hold duplicate keys). -/
def wfNodup : PyObj → Bool
  | .none => true
  | .bool _ => true
  | .int _ => true
  | .str _ => true
  | .list xs => wfNodupList xs
  | .dict xs => decide ((xs.map Prod.fst).Nodup) && wfNodupPairs xs
where
  wfNodupList : List PyObj → Bool
    | [] => true
    | x :: xs => wfNodup x && wfNodupList xs
  wfNodupPairs : List (String × PyObj) → Bool
    | [] => true
    | (_, v) :: xs => wfNodup v && wfNodupPairs xs

/-- Boolean check that a list of strings is sorted (≤). -/
def strAscending : List String → Bool
  | [] => true
  | [_] => true
  | a :: b :: t => strLe a b && strAscending (b :: t)

/-- Every dict level of the value has its keys in ascending (sorted)
order. -/
def keysSorted : PyObj → Bool
  | .none => true
  | .bool _ => true
  | .int _ => true
  | .str _ => true
  | .list xs => keysSortedList xs
  | .dict xs => strAscending (xs.map Prod.fst) && keysSortedPairs xs
where
  keysSortedList : List PyObj → Bool
    | [] => true
    | x :: xs => keysSorted x && keysSortedList xs
  keysSortedPairs : List (String × PyObj) → Bool
    | [] => true
    | (_, v) :: xs => keysSorted v && keysSortedPairs xs

/-! ### Serialization: Python `json.dumps(value, sort_keys=True)`

Modelled from the spec: the `json` module is an external collaborator of
`endpoints.py` (spec §6: values written through the JSON-aware view are the
JSON serialization of the logical value with object keys sorted; values read
are JSON-decoded).  The serializer below matches CPython's `json.dumps` with
`sort_keys=True` and default separators `", "` / `": "`, except that
non-ASCII characters are emitted literally (`ensure_ascii=False` form) and
every control character uses the `\u00XX` escape; both choices only affect
the concrete escape text, not which values round-trip. -/

/-- Decimal digit character for `d < 10`. -/
def digitChar (d : Nat) : Char := Char.ofNat (48 + d)

/-- Lower-case hexadecimal digit character for `d < 16`. -/
def hexDigitChar (d : Nat) : Char :=
  if d < 10 then Char.ofNat (48 + d) else Char.ofNat (87 + d)

/-- Decimal digits of a natural number, most significant first (fuelled;
`fuel > n` suffices). -/
def natDigitsF : Nat → Nat → List Char
  | 0, _ => []
  | f + 1, n => if n < 10 then [digitChar n] else natDigitsF f (n / 10) ++ [digitChar (n % 10)]

/-- Decimal digits of a natural number, as Python's `str(int)`. -/
def natDigits (n : Nat) : List Char := natDigitsF (n + 1) n

/-- Python `str` of an integer. -/
def intChars (n : Int) : List Char :=
  if n < 0 then '-' :: natDigits n.natAbs else natDigits n.toNat

/-- JSON escape of one character. -/
def escapeChar (c : Char) : List Char :=
  if c = '"' then ['\\', '"']
  else if c = '\\' then ['\\', '\\']
  else if c.toNat < 32 then
    ['\\', 'u', '0', '0', hexDigitChar (c.toNat / 16), hexDigitChar (c.toNat % 16)]
  else [c]

/-- JSON escape of a character sequence. -/
def escapeChars : List Char → List Char
  | [] => []
  | c :: t => escapeChar c ++ escapeChars t

/-- JSON serialization of a string, including the surrounding quotes. -/
def strChars (s : String) : List Char := '"' :: (escapeChars s.data ++ ['"'])

/-- Join pre-serialized object members with `": "` and `", "`. -/
def joinMembers : List (String × List Char) → List Char
  | [] => []
  | [(k, v)] => strChars k ++ ':' :: ' ' :: v
  | (k, v) :: p :: t => strChars k ++ ':' :: ' ' :: (v ++ ',' :: ' ' :: joinMembers (p :: t))

/-- Characters of `json.dumps(v, sort_keys=True)`. -/
def dumps : PyObj → List Char
  | .none => "null".data
  | .bool true => "true".data
  | .bool false => "false".data
  | .int n => intChars n
  | .str s => strChars s
  | .list xs => '[' :: (dumpsList xs ++ [']'])
  | .dict xs => '{' :: (joinMembers (sortByKey (dumpsPairs xs)) ++ ['}'])
where
  dumpsList : List PyObj → List Char
    | [] => []
    | [x] => dumps x
    | x :: y :: t => dumps x ++ ',' :: ' ' :: dumpsList (y :: t)
  dumpsPairs : List (String × PyObj) → List (String × List Char)
    | [] => []
    | (k, v) :: t => (k, dumps v) :: dumpsPairs t

/-- Python `json.dumps(v, sort_keys=True)` as a string. -/
def dumpsStr (v : PyObj) : String := String.mk (dumps v)

/-! ### Parsing: Python `json.loads`

Modelled from the spec (same external collaborator).  Restrictions of the
model: numbers with a fraction or exponent (floats) and `\uXXXX` escapes in
the surrogate range do not yield values of `PyObj`, so the parser rejects
them; Python would produce a float or a lone-surrogate string there.  As in
CPython's strict mode, raw control characters inside strings are rejected,
and duplicate object keys are resolved last-wins by dict insertion. -/

/-- JSON whitespace. -/
def isWs (c : Char) : Bool := c = ' ' || c = '\t' || c = '\n' || c = '\r'

/-- Drop leading JSON whitespace. -/
def skipWs : List Char → List Char
  | [] => []
  | c :: t => if isWs c then skipWs t else c :: t

/-- Expect a literal character sequence. -/
def expectChars : List Char → List Char → Option (List Char)
  | [], s => some s
  | _ :: _, [] => Option.none
  | l :: lt, c :: t => if c = l then expectChars lt t else Option.none

/-- Hexadecimal digit value. -/
def hexVal (c : Char) : Option Nat :=
  if 48 ≤ c.toNat ∧ c.toNat ≤ 57 then some (c.toNat - 48)
  else if 97 ≤ c.toNat ∧ c.toNat ≤ 102 then some (c.toNat - 87)
  else if 65 ≤ c.toNat ∧ c.toNat ≤ 70 then some (c.toNat - 55)
  else Option.none

/-- Decode the four hex digits of a `\uXXXX` escape, returning the code
unit and the remaining input. -/
def parseUEsc : List Char → Option (Nat × List Char)
  | h1 :: h2 :: h3 :: h4 :: r =>
    (match hexVal h1, hexVal h2, hexVal h3, hexVal h4 with
     | some a, some b, some c2, some d => some (4096 * a + 256 * b + 16 * c2 + d, r)
     | _, _, _, _ => Option.none)
  | _ => Option.none

/-- Parse the body of a JSON string after the opening quote; returns the
decoded characters and the input after the closing quote.  Fuelled; any
fuel exceeding the input length suffices. -/
def parseStrBody : Nat → List Char → Option (List Char × List Char)
  | 0, _ => Option.none
  | _ + 1, [] => Option.none
  | fuel + 1, c :: t =>
    if c = '"' then some ([], t)
    else if c = '\\' then
      match t with
      | [] => Option.none
      | e :: t2 =>
        if e = '"' then (parseStrBody fuel t2).map (fun p => ('"' :: p.1, p.2))
        else if e = '\\' then (parseStrBody fuel t2).map (fun p => ('\\' :: p.1, p.2))
        else if e = '/' then (parseStrBody fuel t2).map (fun p => ('/' :: p.1, p.2))
        else if e = 'b' then (parseStrBody fuel t2).map (fun p => (Char.ofNat 8 :: p.1, p.2))
        else if e = 'f' then (parseStrBody fuel t2).map (fun p => (Char.ofNat 12 :: p.1, p.2))
        else if e = 'n' then (parseStrBody fuel t2).map (fun p => (Char.ofNat 10 :: p.1, p.2))
        else if e = 'r' then (parseStrBody fuel t2).map (fun p => (Char.ofNat 13 :: p.1, p.2))
        else if e = 't' then (parseStrBody fuel t2).map (fun p => (Char.ofNat 9 :: p.1, p.2))
        else if e = 'u' then
          match parseUEsc t2 with
          | some (n, r) =>
            if 55296 ≤ n ∧ n < 57344 then Option.none
            else (parseStrBody fuel r).map (fun p => (Char.ofNat n :: p.1, p.2))
          | Option.none => Option.none
        else Option.none
    else if c.toNat < 32 then Option.none
    else (parseStrBody fuel t).map (fun p => (c :: p.1, p.2))

/-- Decimal digit test. -/
def isDigitC (c : Char) : Bool := 48 ≤ c.toNat && c.toNat ≤ 57

/-- Decimal digit value. -/
def digitVal (c : Char) : Nat := c.toNat - 48

/-- Consume leading decimal digits, accumulating their value. -/
def parseDigitsAux : List Char → Nat → Nat × List Char
  | [], acc => (acc, [])
  | c :: t, acc => if isDigitC c then parseDigitsAux t (acc * 10 + digitVal c) else (acc, c :: t)

/-- Parse a nonempty run of digits as a natural number; rejects a following
`.`, `e` or `E` (floats are outside the model). -/
def parseNatNum (s : List Char) : Option (Nat × List Char) :=
  match s with
  | [] => Option.none
  | c :: _ =>
    if isDigitC c then
      let p := parseDigitsAux s 0
      match p.2 with
      | [] => some p
      | c2 :: _ => if c2 = '.' ∨ c2 = 'e' ∨ c2 = 'E' then Option.none else some p
    else Option.none

/-- Parse a JSON integer. -/
def parseNumber : List Char → Option (Int × List Char)
  | [] => Option.none
  | c :: t =>
    if c = '-' then (parseNatNum t).map (fun p => (-(p.1 : Int), p.2))
    else (parseNatNum (c :: t)).map (fun p => ((p.1 : Int), p.2))

/-- Python dict item assignment `m[k] = v`: replace the value of an existing
key in place, or append a new binding. -/
def pyDictInsert (m : List (String × PyObj)) (k : String) (v : PyObj) :
    List (String × PyObj) :=
  match m with
  | [] => [(k, v)]
  | (k0, v0) :: t => if k0 = k then (k0, v) :: t else (k0, v0) :: pyDictInsert t k v

/-- Build a Python dict from parsed members in order (duplicate keys:
last value wins, first position kept). -/
def buildDict (ps : List (String × PyObj)) : List (String × PyObj) :=
  ps.foldl (fun m p => pyDictInsert m p.1 p.2) []

mutual

/-- Parse one JSON value (fuelled recursion; any `fuel` larger than the
nesting depth of the input suffices). -/
def parseValue : Nat → List Char → Option (PyObj × List Char)
  | 0, _ => Option.none
  | fuel + 1, s =>
    match skipWs s with
    | [] => Option.none
    | c :: t =>
      if c = '"' then (parseStrBody (t.length + 1) t).map (fun p => (PyObj.str (String.mk p.1), p.2))
      else if c = 't' then (expectChars ['r', 'u', 'e'] t).map (fun r => (PyObj.bool true, r))
      else if c = 'f' then (expectChars ['a', 'l', 's', 'e'] t).map (fun r => (PyObj.bool false, r))
      else if c = 'n' then (expectChars ['u', 'l', 'l'] t).map (fun r => (PyObj.none, r))
      else if c = '[' then
        match skipWs t with
        | [] => Option.none
        | c2 :: t2 =>
          if c2 = ']' then some (PyObj.list [], t2)
          else (parseElems fuel (c2 :: t2)).map (fun p => (PyObj.list p.1, p.2))
      else if c = '{' then
        match skipWs t with
        | [] => Option.none
        | c2 :: t2 =>
          if c2 = '}' then some (PyObj.dict [], t2)
          else (parseMembers fuel (c2 :: t2)).map (fun p => (PyObj.dict (buildDict p.1), p.2))
      else (parseNumber (c :: t)).map (fun p => (PyObj.int p.1, p.2))

/-- Parse one or more comma-separated array elements and the closing `]`. -/
def parseElems : Nat → List Char → Option (List PyObj × List Char)
  | 0, _ => Option.none
  | fuel + 1, s =>
    match parseValue fuel s with
    | Option.none => Option.none
    | some (v, r) =>
      match skipWs r with
      | [] => Option.none
      | c :: r2 =>
        if c = ',' then (parseElems fuel r2).map (fun p => (v :: p.1, p.2))
        else if c = ']' then some ([v], r2)
        else Option.none

/-- Parse one or more comma-separated object members and the closing `}`. -/
def parseMembers : Nat → List Char → Option (List (String × PyObj) × List Char)
  | 0, _ => Option.none
  | fuel + 1, s =>
    match skipWs s with
    | [] => Option.none
    | c :: t =>
      if c = '"' then
        match parseStrBody (t.length + 1) t with
        | Option.none => Option.none
        | some (k, r) =>
          match skipWs r with
          | [] => Option.none
          | c2 :: r2 =>
            if c2 = ':' then
              match parseValue fuel r2 with
              | Option.none => Option.none
              | some (v, r3) =>
                match skipWs r3 with
                | [] => Option.none
                | c3 :: r4 =>
                  if c3 = ',' then
                    (parseMembers fuel r4).map (fun p => ((String.mk k, v) :: p.1, p.2))
                  else if c3 = '}' then some ([(String.mk k, v)], r4)
                  else Option.none
            else Option.none
      else Option.none

end

/-- Python `json.loads`: parse a complete JSON document, allowing trailing
whitespace only. -/
def loads (s : String) : Option PyObj :=
  match parseValue (s.length + 1) s.data with
  | Option.none => Option.none
  | some (v, rest) => if skipWs rest = [] then some v else Option.none

example : loads "null" = some PyObj.none := rfl

example : loads "[1, \"a\", {}]" = some (.list [.int 1, .str "a", .dict []]) := rfl

example : loads (dumpsStr (.dict [("b", .int 1), ("a", .none)]))
    = some (.dict [("a", .none), ("b", .int 1)]) := rfl

example : loads "not json" = Option.none := rfl

example : dumpsStr (.dict [("b", .int 1), ("a", .str "x")])
    = String.mk ('{' :: (strChars "a" ++ ':' :: ' ' :: strChars "x"
        ++ ',' :: ' ' :: strChars "b" ++ [':', ' ', '1', '}'])) := rfl

/-! ### `UnitDataView` (endpoints.py lines 526-562)

Raw relation data is a Python `dict` mapping string keys to string values,
modelled as an insertion-ordered association list with unique keys. -/

/-- Lookup in a raw data dict (`dict.get(key)`). -/
def rawLookup (m : List (String × String)) (k : String) : Option String :=
  (m.find? (fun p => p.1 == k)).map Prod.snd

/-- Python dict item assignment on raw data: replace in place or append. -/
def rawInsert (m : List (String × String)) (k v : String) : List (String × String) :=
  match m with
  | [] => [(k, v)]
  | (k0, v0) :: t => if k0 = k then (k0, v) :: t else (k0, v0) :: rawInsert t k v

/-- State of a `UnitDataView`: the underlying dict plus the `_writeable` and
`_modified` flags set in `__init__`. -/
structure UnitDataView where
  data : List (String × String)
  writeable : Bool
  modified : Bool

/-- Result of a state-changing Python call: whether it raised, and the
object state afterwards. -/
structure SetResult (σ : Type) where
  raised : Bool
  st : σ

/-- `UnitDataView(data, writeable)`: `_modified` starts out `False`. -/
def mkUnitDataView (data : List (String × String)) (writeable : Bool) : UnitDataView :=
  ⟨data, writeable, false⟩

/-- `UnitDataView.get(key, default)`. -/
def UnitDataView.get (st : UnitDataView) (k : String) (dflt : Option String) : Option String :=
  match rawLookup st.data k with
  | some v => some v
  | Option.none => dflt

/-- `UnitDataView.__getitem__`: `self.data.get(key)`, `none` playing Python's
`None`. -/
def UnitDataView.getItem (st : UnitDataView) (k : String) : Option String :=
  rawLookup st.data k

/-- `UnitDataView.__setitem__`: raise `ValueError` unless writeable, else set
`_modified` and store. -/
def UnitDataView.setItem (st : UnitDataView) (k v : String) : SetResult UnitDataView :=
  if st.writeable = false then ⟨true, st⟩
  else ⟨false, { st with modified := true, data := rawInsert st.data k v }⟩

/-- Python `del view[key]`, inherited from `UserDict`: delete the key from
the underlying dict (raising `KeyError` when absent); `_modified` is not
touched. -/
def UnitDataView.delItem (st : UnitDataView) (k : String) : SetResult UnitDataView :=
  match rawLookup st.data k with
  | some _ => ⟨false, { st with data := st.data.eraseP (fun p => p.1 == k) }⟩
  | Option.none => ⟨true, st⟩

/-! ### `JSONUnitDataView` (endpoints.py lines 565-622)

Its state is the wrapped `UnitDataView` (`self.data`); `modified` and
`writeable` are forwarded. -/

/-- `JSONUnitDataView.__getitem__`: return absent/falsy raw values
unchanged, else decode, falling back to the raw string. -/
def jsonGetItem (st : UnitDataView) (k : String) : PyObj :=
  match UnitDataView.getItem st k with
  | Option.none => PyObj.none
  | some v =>
    if v = "" then PyObj.str ""
    else
      match loads v with
      | some j => j
      | Option.none => PyObj.str v

/-- `JSONUnitDataView.get(key, default)`. -/
def jsonGet (st : UnitDataView) (k : String) (dflt : PyObj) : PyObj :=
  if (rawLookup st.data k).isSome then jsonGetItem st k else dflt

/-- `JSONUnitDataView.__setitem__`: store `json.dumps(value, sort_keys=True)`
through the raw view. -/
def jsonSetItem (st : UnitDataView) (k : String) (v : PyObj) : SetResult UnitDataView :=
  UnitDataView.setItem st k (dumpsStr v)

/-- Operations available on a data view within one hook event. -/
inductive ViewOp : Type where
  | rawSet (k v : String) : ViewOp
  | jsonSet (k : String) (v : PyObj) : ViewOp
  | del (k : String) : ViewOp
  | rawRead (k : String) : ViewOp
  | jsonRead (k : String) : ViewOp

/-- State after one operation (reads do not change the state; a raising
write leaves the state unchanged). -/
def viewStep (st : UnitDataView) : ViewOp → UnitDataView
  | .rawSet k v => (UnitDataView.setItem st k v).st
  | .jsonSet k v => (jsonSetItem st k v).st
  | .del k => (UnitDataView.delItem st k).st
  | .rawRead _ => st
  | .jsonRead _ => st

/-! ### `Relation._flush_data` (endpoints.py lines 338-344) -/

/-- `Relation._flush_data`: the external `relation_set` call it performs, if
any.  `d` is the relation's `_data` (`None` until `to_publish` is first
accessed).  The source guard is `if self._data and self._data.modified:`,
where the first conjunct is Python truthiness of the view, i.e.
`len(raw dict) != 0`.  The write payload is `dict(self.to_publish.data)`,
i.e. a copy of the raw mapping, in one `relation_set` call for this
relation id. -/
def flushData (relationId : String) (d : Option UnitDataView) :
    Option (String × List (String × String)) :=
  match d with
  | Option.none => Option.none
  | some v =>
    if !v.data.isEmpty && v.modified then some (relationId, v.data) else Option.none

/-! ### Remote units and `CombinedUnitsView` (endpoints.py lines 347-523) -/

/-- A remote unit on a relation, with the raw data fetched for it from the
environment (`hookenv.relation_get(unit=unit_name, rid=relation_id)`). -/
structure RelatedUnit where
  relationId : String
  unitName : String
  received_raw : List (String × String)

/-- Sort order of `CombinedUnitsView.__init__`:
`sorted(items, key=lambda i: (i.relation.relation_id, i.unit_name))`, i.e.
lexicographic tuple comparison on plain Python strings. -/
def unitLe (a b : RelatedUnit) : Prop :=
  strLt a.relationId b.relationId = true ∨
    (a.relationId = b.relationId ∧ strLe a.unitName b.unitName = true)

instance : DecidableRel unitLe := fun a b =>
  inferInstanceAs (Decidable (_ ∨ _))

theorem charsLt_eq_not_charsLe : ∀ a b, charsLt a b = !charsLe b a
  | [], [] => rfl
  | [], _ :: _ => rfl
  | _ :: _, [] => rfl
  | a :: as, b :: bs => by
    simp only [charsLt, charsLe]
    split_ifs with g1 g2 g3 g4 <;> try omega
    all_goals simp_all [charsLt_eq_not_charsLe as bs]
    all_goals omega

theorem charsLt_trans : ∀ a b c, charsLt a b = true → charsLt b c = true →
    charsLt a c = true
  | [], _, _ :: _ => by intro _ _; rfl
  | [], [], _ => by intro h _; simp [charsLt] at h
  | [], _ :: _, [] => by intro _ h; simp [charsLt] at h
  | _ :: _, [], _ => by intro h _; simp [charsLt] at h
  | a :: as, b :: bs, [] => by intro _ h; simp [charsLt] at h
  | a :: as, b :: bs, c :: cs => by
    intro h1 h2
    simp only [charsLt] at h1 h2 ⊢
    split_ifs at h1 h2 ⊢ with g1 g2 g3 g4 g5 g6 <;> try omega
    all_goals try simp_all
    exact charsLt_trans as bs cs h1 h2

theorem char_eq_of_toNat_eq {a b : Char} (h : a.toNat = b.toNat) : a = b :=
  Char.eq_of_val_eq (UInt32.toNat.inj h)

theorem charsLt_connex : ∀ a b, a ≠ b → charsLt a b = true ∨ charsLt b a = true
  | [], [] => by intro h; exact absurd rfl h
  | [], _ :: _ => by intro _; left; rfl
  | _ :: _, [] => by intro _; right; rfl
  | a :: as, b :: bs => by
    intro h
    by_cases h1 : a.toNat < b.toNat
    · left; simp [charsLt, h1]
    · by_cases h2 : b.toNat < a.toNat
      · right; simp [charsLt, h1, h2]
      · have hab : a = b := char_eq_of_toNat_eq (by omega)
        have : as ≠ bs := by
          intro hx; exact h (by rw [hab, hx])
        rcases charsLt_connex as bs this with h3 | h3
        · left; simpa [charsLt, h1, h2] using h3
        · right; simpa [charsLt, h1, h2, hab] using h3

theorem str_eq_of_data_eq {a b : String} (h : a.data = b.data) : a = b := by
  cases a
  cases b
  simp at h
  simp [h]

instance : IsTotal RelatedUnit unitLe := by
  constructor
  intro a b
  by_cases h : a.relationId = b.relationId
  · rcases charsLe_total a.unitName.data b.unitName.data with h2 | h2
    · exact Or.inl (Or.inr ⟨h, h2⟩)
    · exact Or.inr (Or.inr ⟨h.symm, h2⟩)
  · have : a.relationId.data ≠ b.relationId.data := fun hx => h (str_eq_of_data_eq hx)
    rcases charsLt_connex _ _ this with h2 | h2
    · exact Or.inl (Or.inl h2)
    · exact Or.inr (Or.inl h2)

instance : IsTrans RelatedUnit unitLe := by
  constructor
  intro a b c h1 h2
  rcases h1 with h1 | ⟨e1, l1⟩
  · rcases h2 with h2 | ⟨e2, l2⟩
    · exact Or.inl (charsLt_trans _ _ _ h1 h2)
    · exact Or.inl (by rw [← e2]; exact h1)
  · rcases h2 with h2 | ⟨e2, l2⟩
    · exact Or.inl (by rw [e1]; exact h2)
    · exact Or.inr ⟨e1.trans e2, charsLe_trans _ _ _ l1 l2⟩

/-- `CombinedUnitsView.__init__`: units sorted ascending by
`(relation_id, unit_name)` (Python's stable `sorted`). -/
def sortUnits (us : List RelatedUnit) : List RelatedUnit :=
  us.insertionSort unitLe

/-- Insert all items of one unit's raw dict into the dict being built (the
inner loop of the dict comprehension). -/
def insertItems (m : List (String × String)) (items : List (String × String)) :
    List (String × String) :=
  items.foldl (fun m2 p => rawInsert m2 p.1 p.2) m

/-- The merged raw dict of `CombinedUnitsView.received` /
`received_raw`: a dict comprehension over the units in reverse sorted
order, later insertions overwriting earlier ones. -/
def combinedRaw (us : List RelatedUnit) : List (String × String) :=
  (sortUnits us).reverse.foldl (fun m u => insertItems m u.received_raw) []

/-- `KeyList.__getitem__` with a string key: the first item whose key
attribute matches; `none` models the `KeyError`. -/
def keyListGet (us : List RelatedUnit) (k : String) : Option RelatedUnit :=
  us.find? (fun u => u.unitName == k)

/-! ### Flags, previous-value store, and `Endpoint._manage_flags`
(endpoints.py lines 159-199) -/

/-- Modelled from the spec: `charms.reactive.flags.set_flag` (the flag store
is an external collaborator; spec §6 "get/set/test a named boolean flag"). -/
def setFlag (fs : String → Bool) (f : String) : String → Bool :=
  fun x => if x = f then true else fs x

/-- Modelled from the spec: `charms.reactive.flags.toggle_flag`, which sets
or clears the named flag according to the boolean. -/
def toggleFlag (fs : String → Bool) (f : String) (b : Bool) : String → Bool :=
  fun x => if x = f then b else fs x

/-- Modelled from the spec: `charms.reactive.flags.is_flag_set`. -/
def isFlagSet (fs : String → Bool) (f : String) : Bool := fs f

/-- Modelled from the spec: `charms.reactive.helpers.data_changed(key, value)`
— "store/compare-and-report-changed(key, value) → boolean did this differ
from last stored value, updating the stored value as a side effect" (spec
§6).  A key never stored before counts as changed.  Values are compared as
Python values (the production code compares hashes of
`json.dumps(value, sort_keys=True)`, which is `pyEqv`). -/
def dataChanged (ds : String → Option PyObj) (k : String) (v : PyObj) :
    Bool × (String → Option PyObj) :=
  (match ds k with
   | Option.none => true
   | some a => !pyEqv a v,
   fun x => if x = k then some v else ds x)

/-- Python `hook_name.startswith(s)`. -/
def strStartsWith (s pre : String) : Bool := pre.data.isPrefixOf s.data

/-- Python `hook_name.endswith(s)`. -/
def strEndsWith (s suf : String) : Bool := suf.data.isSuffixOf s.data

/-- The `{endpoint_name}` placeholder token of `Endpoint.expand_name`. -/
def placeholder : List Char := "{endpoint_name}".data

/-- Python `'{endpoint_name}' in flag`. -/
def hasPlaceholder : List Char → Bool
  | [] => false
  | c :: t => placeholder.isPrefixOf (c :: t) || hasPlaceholder t

/-- Scanner for `substPlaceholder`: with skip counter `0`, emit `name` at
every occurrence of the placeholder (then skip its remaining 14 characters
via the counter) and copy other characters through. -/
def substA (name : List Char) : Nat → List Char → List Char
  | _, [] => []
  | s + 1, _ :: t => substA name s t
  | 0, c :: t =>
    if placeholder.isPrefixOf (c :: t) then name ++ substA name 14 t
    else c :: substA name 0 t

/-- Python `flag.format(endpoint_name=name)`, restricted to flags whose only
format field is the `{endpoint_name}` placeholder (other format fields, and
stray braces, are outside the model: `str.format` would raise on them). -/
def substPlaceholder (name : List Char) (l : List Char) : List Char :=
  substA name 0 l

/-- `Endpoint.expand_name(flag)` for an endpoint named `en`. -/
def expandName (en flag : String) : String :=
  let f2 :=
    if hasPlaceholder flag.data then flag.data
    else "endpoint.{endpoint_name}.".data ++ flag.data
  String.mk (substPlaceholder en.data f2)

/-- The state read and written by `Endpoint._manage_flags`: the flag store,
the `data_changed` previous-value store, and the log of `data_changed`
calls made (the external API reads the skip rule is there to avoid). -/
structure MFState where
  flags : String → Bool
  store : String → Option PyObj
  calls : List String

/-- The environment visible to one endpoint during `_startup`: its name, the
relation ids (already normalized), all remote units with their fetched raw
data, and the current hook name. -/
structure EndpointEnv where
  endpointName : String
  relationIds : List String
  allUnits : List RelatedUnit
  hookName : String

/-- `unit.received.items()`: the unit's raw keys in order, with values
JSON-decoded by `JSONUnitDataView.__getitem__`. -/
def receivedItems (u : RelatedUnit) : List (String × PyObj) :=
  u.received_raw.map (fun p => (p.1, jsonGetItem (mkUnitDataView u.received_raw false) p.1))

/-- The `data_changed` key
`'endpoint.{}.{}.{}.{}'.format(endpoint_name, relation_id, unit_name, key)`. -/
def dataKey (en relId unitName field : String) : String :=
  "endpoint." ++ en ++ "." ++ relId ++ "." ++ unitName ++ "." ++ field

/-- One iteration of the change-detection loop body of
`Endpoint._manage_flags`, for the received pair
`(relation id, unit name, field, value)`. -/
def processPair (en : String) (st : MFState) (q : String × String × String × PyObj) :
    MFState :=
  let dk := dataKey en q.1 q.2.1 q.2.2.1
  let r := dataChanged st.store dk q.2.2.2
  let st1 : MFState := { st with store := r.2, calls := st.calls ++ [dk] }
  if r.1 then
    { st1 with
      flags := setFlag (setFlag st1.flags (expandName en "changed"))
        (expandName en ("changed." ++ q.2.2.1)) }
  else st1

/-- The full change-detection loop over all received pairs. -/
def processPairs (en : String) (st : MFState)
    (qs : List (String × String × String × PyObj)) : MFState :=
  qs.foldl (processPair en) st

/-- The received pairs scanned by the loop: `self.all_units` (units of all
relations, in `CombinedUnitsView` order) with each unit's decoded items. -/
def allPairs (env : EndpointEnv) : List (String × String × String × PyObj) :=
  (sortUnits env.allUnits).flatMap
    (fun u => (receivedItems u).map (fun p => (u.relationId, u.unitName, p.1, p.2)))

/-- `Endpoint._manage_flags`, sequentially as in the source: read the prior
`joined` flag, classify the hook, toggle `joined`, set `departed` on a
departed hook, then either skip change detection (already joined and not a
relation hook for this endpoint) or run it. -/
def manageFlags (env : EndpointEnv) (st : MFState) : MFState :=
  let joinedFlag := expandName env.endpointName "joined"
  let already := isFlagSet st.flags joinedFlag
  let relHook := strStartsWith env.hookName (env.endpointName ++ "-relation-")
  let departedHook := relHook && strEndsWith env.hookName "-departed"
  let joined := decide (env.relationIds.length > 0)
  let st1 : MFState := { st with flags := toggleFlag st.flags joinedFlag joined }
  let st2 : MFState :=
    if departedHook then
      { st1 with flags := setFlag st1.flags (expandName env.endpointName "departed") }
    else st1
  if already && !relHook then st2
  else processPairs env.endpointName st2 (allPairs env)

/-! ### Claim C7: the `__setitem__` write guard -/

/-- Claim C7: index-style assignment on a `UnitDataView` raises exactly when
`writeable` is false, leaving the data and the `modified` flag unchanged;
when `writeable` is true it stores the value and sets `modified`, the
writeable test being the only guard (no other condition controls the
outcome). -/
theorem C7_setitem_guard (st : UnitDataView) (k v : String) :
    ((UnitDataView.setItem st k v).raised = true ↔ st.writeable = false) ∧
    (st.writeable = false → (UnitDataView.setItem st k v).st = st) ∧
    (st.writeable = true →
      (UnitDataView.setItem st k v).raised = false ∧
      (UnitDataView.setItem st k v).st.data = rawInsert st.data k v ∧
      (UnitDataView.setItem st k v).st.modified = true) := by
  obtain ⟨d, w, m⟩ := st
  cases w <;> simp [UnitDataView.setItem]

/-- Witness for C7 at concrete states. -/
theorem C7_setitem_guard_witness :
    (UnitDataView.setItem (mkUnitDataView [("a", "1")] false) "k" "v").raised = true ∧
    (UnitDataView.setItem (mkUnitDataView [("a", "1")] false) "k" "v").st
      = mkUnitDataView [("a", "1")] false ∧
    (UnitDataView.setItem (mkUnitDataView [] true) "k" "v").st.modified = true :=
  ⟨(C7_setitem_guard (mkUnitDataView [("a", "1")] false) "k" "v").1.mpr rfl,
   (C7_setitem_guard (mkUnitDataView [("a", "1")] false) "k" "v").2.1 rfl,
   ((C7_setitem_guard (mkUnitDataView [] true) "k" "v").2.2 rfl).2.2⟩

/-! ### Claim C8: the `modified` flag lifecycle -/

theorem viewStep_modified_mono (st : UnitDataView) (op : ViewOp)
    (h : st.modified = true) : (viewStep st op).modified = true := by
  obtain ⟨d, w, m⟩ := st
  cases op with
  | rawSet k v => cases w <;> simp_all [viewStep, UnitDataView.setItem]
  | jsonSet k v => cases w <;> simp_all [viewStep, jsonSetItem, UnitDataView.setItem]
  | del k =>
    simp only [viewStep, UnitDataView.delItem]
    cases rawLookup d k <;> simp_all
  | rawRead k => exact h
  | jsonRead k => exact h

/-- Claim C8: `modified` is false immediately after construction, becomes
true after the first successful write (raw or JSON), and no subsequent
operation within the event resets it. -/
theorem C8_modified_lifecycle :
    (∀ (d : List (String × String)) (w : Bool), (mkUnitDataView d w).modified = false) ∧
    (∀ (st : UnitDataView) (k v : String), (UnitDataView.setItem st k v).raised = false →
      (UnitDataView.setItem st k v).st.modified = true) ∧
    (∀ (st : UnitDataView) (k : String) (v : PyObj), (jsonSetItem st k v).raised = false →
      (jsonSetItem st k v).st.modified = true) ∧
    (∀ (st : UnitDataView) (ops : List ViewOp), st.modified = true →
      (ops.foldl viewStep st).modified = true) := by
  refine ⟨fun d w => rfl, ?_, ?_, ?_⟩
  · intro st k v h
    obtain ⟨d, w, m⟩ := st
    cases w <;> simp_all [UnitDataView.setItem]
  · intro st k v h
    obtain ⟨d, w, m⟩ := st
    cases w <;> simp_all [jsonSetItem, UnitDataView.setItem]
  · intro st ops
    induction ops generalizing st with
    | nil => exact fun h => h
    | cons op t ih => exact fun h => ih _ (viewStep_modified_mono st op h)

/-- Witness for C8: a concrete write then further operations. -/
theorem C8_modified_lifecycle_witness :
    (mkUnitDataView [] true).modified = false ∧
    (jsonSetItem (mkUnitDataView [] true) "k" (.int 7)).raised = false ∧
    (jsonSetItem (mkUnitDataView [] true) "k" (.int 7)).st.modified = true ∧
    ([ViewOp.del "k", ViewOp.rawRead "k", ViewOp.jsonSet "j" .none].foldl viewStep
      (jsonSetItem (mkUnitDataView [] true) "k" (.int 7)).st).modified = true :=
  ⟨C8_modified_lifecycle.1 [] true, rfl,
   C8_modified_lifecycle.2.2.1 (mkUnitDataView [] true) "k" (.int 7) rfl,
   C8_modified_lifecycle.2.2.2 _ _
     (C8_modified_lifecycle.2.2.1 (mkUnitDataView [] true) "k" (.int 7) rfl)⟩

/-! ### Claim C2: `Relation._flush_data` -/

/-- Claim C2 counterexample: a publish view that is modified but empty is
not written.  `flushData` makes no call even though `modified` is true, so
"when modified is true it writes exactly the current buffered raw mapping"
fails as stated: the source guard `if self._data and self._data.modified`
tests Python truthiness of the view (its length), not only its presence. -/
theorem C2_flush_counterexample :
    (UnitDataView.mk [] true true).modified = true ∧
    flushData "db:1" (some (UnitDataView.mk [] true true)) = Option.none :=
  ⟨rfl, rfl⟩

/-- Claim C2 (amended): flush performs no write when the publish view was
never constructed, when its `modified` flag is false, or when its buffered
mapping is empty; when `modified` is true and the mapping is non-empty it
writes exactly the buffered raw mapping, in one call, for this relation
id. -/
theorem C2_flush_amended (relId : String) (d : Option UnitDataView) :
    (d = Option.none → flushData relId d = Option.none) ∧
    (∀ v, d = some v → v.modified = false → flushData relId d = Option.none) ∧
    (∀ v, d = some v → v.data = [] → flushData relId d = Option.none) ∧
    (∀ v, d = some v → v.modified = true → v.data ≠ [] →
      flushData relId d = some (relId, v.data)) := by
  refine ⟨?_, ?_, ?_, ?_⟩
  · intro h; rw [h]; rfl
  · intro v h hm
    rw [h]
    simp [flushData, hm]
  · intro v h hd
    rw [h]
    simp [flushData, hd]
  · intro v h hm hd
    rw [h]
    simp [flushData, hm, hd, List.isEmpty_iff]

/-- Witness for the amended C2 at concrete states. -/
theorem C2_flush_amended_witness :
    flushData "db:0" Option.none = Option.none ∧
    flushData "db:0" (some (UnitDataView.mk [("k", "v")] true false)) = Option.none ∧
    flushData "db:0" (some (UnitDataView.mk [("k", "v")] true true))
      = some ("db:0", [("k", "v")]) :=
  ⟨(C2_flush_amended "db:0" Option.none).1 rfl,
   (C2_flush_amended "db:0" (some (UnitDataView.mk [("k", "v")] true false))).2.1 _ rfl rfl,
   (C2_flush_amended "db:0" (some (UnitDataView.mk [("k", "v")] true true))).2.2.2 _ rfl rfl
     (by simp)⟩

/-! ### Claim C6: `JSONUnitDataView.__getitem__` never raises -/

/-- Claim C6: reading any key from a `JSONUnitDataView` never raises (the
read is a total function): an absent raw value is returned unchanged as the
absent sentinel (`PyObj.none`, not an error and not a JSON decode), an
empty raw value is returned unchanged with no decode attempt, a decodable
raw value yields the decoded structure, and an undecodable raw value yields
the original raw string. -/
theorem C6_json_read_total (st : UnitDataView) (k : String) :
    (UnitDataView.getItem st k = Option.none → jsonGetItem st k = PyObj.none) ∧
    (UnitDataView.getItem st k = some "" → jsonGetItem st k = PyObj.str "") ∧
    (∀ v j, UnitDataView.getItem st k = some v → v ≠ "" → loads v = some j →
      jsonGetItem st k = j) ∧
    (∀ v, UnitDataView.getItem st k = some v → v ≠ "" → loads v = Option.none →
      jsonGetItem st k = PyObj.str v) := by
  refine ⟨?_, ?_, ?_, ?_⟩
  · intro h
    simp [jsonGetItem, h]
  · intro h
    simp [jsonGetItem, h]
  · intro v j h hv hl
    simp [jsonGetItem, h, hv, hl]
  · intro v h hv hl
    simp [jsonGetItem, h, hv, hl]

/-- Witness for C6: a concrete raw store with an absent key, an empty value,
a JSON value, and a legacy non-JSON value. -/
theorem C6_json_read_total_witness :
    jsonGetItem (mkUnitDataView [("e", ""), ("j", "[1, 2]"), ("l", "10.0.0.1")] false) "zz"
      = PyObj.none ∧
    jsonGetItem (mkUnitDataView [("e", ""), ("j", "[1, 2]"), ("l", "10.0.0.1")] false) "e"
      = PyObj.str "" ∧
    jsonGetItem (mkUnitDataView [("e", ""), ("j", "[1, 2]"), ("l", "10.0.0.1")] false) "j"
      = PyObj.list [.int 1, .int 2] ∧
    jsonGetItem (mkUnitDataView [("e", ""), ("j", "[1, 2]"), ("l", "10.0.0.1")] false) "l"
      = PyObj.str "10.0.0.1" :=
  ⟨(C6_json_read_total (mkUnitDataView [("e", ""), ("j", "[1, 2]"), ("l", "10.0.0.1")] false)
      "zz").1 rfl,
   (C6_json_read_total (mkUnitDataView [("e", ""), ("j", "[1, 2]"), ("l", "10.0.0.1")] false)
      "e").2.1 rfl,
   (C6_json_read_total (mkUnitDataView [("e", ""), ("j", "[1, 2]"), ("l", "10.0.0.1")] false)
      "j").2.2.1 "[1, 2]" (PyObj.list [.int 1, .int 2]) rfl (by decide) rfl,
   (C6_json_read_total (mkUnitDataView [("e", ""), ("j", "[1, 2]"), ("l", "10.0.0.1")] false)
      "l").2.2.2 "10.0.0.1" rfl (by decide) rfl⟩

/-! ### Claim C10: the sort order is plain string comparison -/

/-- Claim C10: the `(relation-id, unit-name)` ordering deciding merge
precedence and keyed lookup is lexicographic string comparison, not numeric
comparison of trailing indices: unit `app/10` sorts before `app/2` and its
values win conflicting keys; relation `db:10` sorts before `db:2`, its
unit's values win conflicting keys, and keyed lookup of a duplicated unit
name returns the `db:10` copy. -/
theorem C10_string_sort_order :
    sortUnits [⟨"db:2", "app/2", [("k", "a2")]⟩, ⟨"db:2", "app/10", [("k", "a10")]⟩]
      = [⟨"db:2", "app/10", [("k", "a10")]⟩, ⟨"db:2", "app/2", [("k", "a2")]⟩] ∧
    rawLookup (combinedRaw
      [⟨"db:2", "app/2", [("k", "a2")]⟩, ⟨"db:2", "app/10", [("k", "a10")]⟩]) "k"
      = some "a10" ∧
    sortUnits [⟨"db:2", "u/0", [("k", "r2")]⟩, ⟨"db:10", "u/0", [("k", "r10")]⟩]
      = [⟨"db:10", "u/0", [("k", "r10")]⟩, ⟨"db:2", "u/0", [("k", "r2")]⟩] ∧
    rawLookup (combinedRaw
      [⟨"db:2", "u/0", [("k", "r2")]⟩, ⟨"db:10", "u/0", [("k", "r10")]⟩]) "k"
      = some "r10" ∧
    keyListGet (sortUnits [⟨"db:2", "u/0", [("k", "r2")]⟩, ⟨"db:10", "u/0", [("k", "r10")]⟩])
      "u/0" = some ⟨"db:10", "u/0", [("k", "r10")]⟩ :=
  ⟨rfl, rfl, rfl, rfl, rfl⟩

/-! ### Claim C9: `Endpoint.expand_name` -/

theorem isPrefixOf_placeholder_false {c : Char} (t : List Char) (h : c ≠ '{') :
    placeholder.isPrefixOf (c :: t) = false := by
  show (('{' == c) && _) = false
  have : ('{' == c) = false := by
    simp only [beq_eq_false_iff_ne, ne_eq]
    exact fun hx => h hx.symm
  simp [this]

theorem substA_skip (name : List Char) :
    ∀ (x t : List Char), substA name x.length (x ++ t) = substA name 0 t := by
  intro x
  induction x with
  | nil => intro t; rfl
  | cons c x ih => intro t; simpa [substA] using ih t

theorem substA_match (name b : List Char) :
    substA name 0 (placeholder ++ b) = name ++ substA name 0 b := by
  have hpre : placeholder.isPrefixOf ('{' :: ("endpoint_name\x7d".data ++ b)) = true := by
    rw [show ('{' :: ("endpoint_name\x7d".data ++ b)) = placeholder ++ b from rfl,
      List.isPrefixOf_iff_prefix]
    exact List.prefix_append _ _
  have h1 : substA name 0 (placeholder ++ b)
      = name ++ substA name 14 ("endpoint_name\x7d".data ++ b) := by
    rw [show placeholder ++ b = '{' :: ("endpoint_name\x7d".data ++ b) from rfl]
    simp only [substA]
    rw [hpre]
    simp
  have h2 : ("endpoint_name\x7d".data).length = 14 := rfl
  rw [h1, ← h2, substA_skip]

theorem substPlaceholder_cons_of_ne (name : List Char) (c : Char) (t : List Char)
    (h : c ≠ '{') :
    substPlaceholder name (c :: t) = c :: substPlaceholder name t := by
  unfold substPlaceholder
  simp only [substA]
  simp [isPrefixOf_placeholder_false t h]

theorem substPlaceholder_id_of_braceFree (name : List Char) :
    ∀ l, (∀ c ∈ l, c ≠ '{') → substPlaceholder name l = l := by
  intro l
  induction l with
  | nil => intro _; rfl
  | cons c t ih =>
    intro h
    rw [substPlaceholder_cons_of_ne name c t (h c (by simp)),
      ih (fun x hx => h x (by simp [hx]))]

theorem hasPlaceholder_append_placeholder :
    ∀ (a b : List Char), hasPlaceholder (a ++ (placeholder ++ b)) = true := by
  intro a
  induction a with
  | nil =>
    intro b
    show (placeholder.isPrefixOf (placeholder ++ b) || _) = true
    have : placeholder.isPrefixOf (placeholder ++ b) = true := by
      rw [List.isPrefixOf_iff_prefix]
      exact List.prefix_append _ _
    simp [this]
  | cons c t ih =>
    intro b
    show (_ || hasPlaceholder (t ++ (placeholder ++ b))) = true
    simp [ih b]

theorem substPlaceholder_boundary (name : List Char) :
    ∀ (a b : List Char), (∀ c ∈ a, c ≠ '{') →
      substPlaceholder name (a ++ (placeholder ++ b)) = a ++ (name ++ substPlaceholder name b) := by
  intro a
  induction a with
  | nil => intro b _; exact substA_match name b
  | cons c t ih =>
    intro b h
    have hc : c ≠ '{' := h c (by simp)
    rw [List.cons_append, substPlaceholder_cons_of_ne name c _ hc,
      ih b (fun x hx => h x (by simp [hx]))]
    rfl

theorem hasPlaceholder_eq_false {l : List Char} (h : ∀ c ∈ l, c ≠ '{') :
    hasPlaceholder l = false := by
  induction l with
  | nil => rfl
  | cons c t ih =>
    simp only [hasPlaceholder, Bool.or_eq_false_iff]
    exact ⟨isPrefixOf_placeholder_false t (h c (by simp)),
      ih (fun x hx => h x (by simp [hx]))⟩

/-- Claim C9: for a flag not containing the `{endpoint_name}` placeholder
(and free of format braces), `expand_name` produces
`endpoint.<endpoint_name>.<short_name>`; for a flag that already contains
the placeholder, the endpoint name is filled in where the placeholder
stands and no prefix is added. -/
theorem C9_expand_name (en flag : String) :
    ((∀ c ∈ flag.data, c ≠ '{' ∧ c ≠ '}') →
      expandName en flag = "endpoint." ++ en ++ "." ++ flag) ∧
    (∀ a b : List Char, flag.data = a ++ (placeholder ++ b) →
      (∀ c ∈ a, c ≠ '{') → (∀ c ∈ b, c ≠ '{') →
      expandName en flag = String.mk (a ++ (en.data ++ b))) := by
  constructor
  · intro h
    have hnp : hasPlaceholder flag.data = false :=
      hasPlaceholder_eq_false (fun c hc => (h c hc).1)
    apply str_eq_of_data_eq
    show substPlaceholder en.data (if hasPlaceholder flag.data = true then flag.data
        else "endpoint.{endpoint_name}.".data ++ flag.data) = _
    rw [if_neg (by simp [hnp])]
    have hsplit : "endpoint.{endpoint_name}.".data ++ flag.data
        = "endpoint.".data ++ (placeholder ++ ('.' :: flag.data)) := rfl
    rw [hsplit, substPlaceholder_boundary en.data _ _ (by decide),
      substPlaceholder_cons_of_ne en.data '.' _ (by decide),
      substPlaceholder_id_of_braceFree en.data _ (fun c hc => (h c hc).1)]
    simp [String.data_append, List.append_assoc]
  · intro a b hsplit ha hb
    have hp : hasPlaceholder flag.data = true := by
      rw [hsplit]; exact hasPlaceholder_append_placeholder a b
    apply str_eq_of_data_eq
    show substPlaceholder en.data (if hasPlaceholder flag.data = true then flag.data
        else "endpoint.{endpoint_name}.".data ++ flag.data) = _
    rw [if_pos hp, hsplit, substPlaceholder_boundary en.data _ _ ha,
      substPlaceholder_id_of_braceFree en.data _ hb]

/-- Witness for C9: both branches at concrete flags. -/
theorem C9_expand_name_witness :
    expandName "db" "joined" = "endpoint.db.joined" ∧
    expandName "db" "endpoint.{endpoint_name}.changed" = "endpoint.db.changed" :=
  ⟨(C9_expand_name "db" "joined").1 (by decide),
   by
    have h := (C9_expand_name "db" "endpoint.{endpoint_name}.changed").2
      "endpoint.".data (".changed".data) rfl (by decide) (by decide)
    rw [h]
    rfl⟩

/-! ### Claim C4: the change-detection skip rule of `_manage_flags` -/

theorem expandName_no_placeholder_data (en flag : String)
    (h : hasPlaceholder flag.data = false) :
    (expandName en flag).data
      = "endpoint.".data ++ (en.data ++ ('.' :: substPlaceholder en.data flag.data)) := by
  show substPlaceholder en.data (if hasPlaceholder flag.data = true then flag.data
      else "endpoint.{endpoint_name}.".data ++ flag.data) = _
  rw [if_neg (by simp [h])]
  have hsplit : "endpoint.{endpoint_name}.".data ++ flag.data
      = "endpoint.".data ++ (placeholder ++ ('.' :: flag.data)) := rfl
  rw [hsplit, substPlaceholder_boundary en.data _ _ (by decide),
    substPlaceholder_cons_of_ne en.data '.' _ (by decide)]

theorem expandName_placeholder_data (en flag : String)
    (h : hasPlaceholder flag.data = true) :
    (expandName en flag).data = substPlaceholder en.data flag.data := by
  show substPlaceholder en.data (if hasPlaceholder flag.data = true then flag.data
      else "endpoint.{endpoint_name}.".data ++ flag.data) = _
  rw [if_pos h]

theorem expandName_short_ne (en : String) (s1 s2 : String)
    (h1 : hasPlaceholder s1.data = false) (h2 : hasPlaceholder s2.data = false)
    (b1 : ∀ c ∈ s1.data, c ≠ '{') (b2 : ∀ c ∈ s2.data, c ≠ '{')
    (hne : s1.data ≠ s2.data) :
    expandName en s1 ≠ expandName en s2 := by
  intro hEq
  have hd := congrArg String.data hEq
  rw [expandName_no_placeholder_data en _ h1, expandName_no_placeholder_data en _ h2,
    substPlaceholder_id_of_braceFree en.data _ b1,
    substPlaceholder_id_of_braceFree en.data _ b2] at hd
  have h3 := List.append_cancel_left (List.append_cancel_left hd)
  have h4 : s1.data = s2.data := by injection h3
  exact hne h4

theorem expandName_changedKey_ne_joined (en key : String) :
    expandName en ("changed." ++ key) ≠ expandName en "joined" := by
  intro hEq
  have hd := congrArg String.data hEq
  have hflag : ("changed." ++ key).data = 'c' :: ("hanged.".data ++ key.data) := by
    simp [String.data_append]
  have hjoined : hasPlaceholder ("joined" : String).data = false := by decide
  by_cases hp : hasPlaceholder ("changed." ++ key).data
  · rw [expandName_placeholder_data en _ hp, expandName_no_placeholder_data en _ hjoined,
      hflag, substPlaceholder_cons_of_ne en.data 'c' _ (by decide),
      show ("endpoint." : String).data = 'e' :: "ndpoint.".data from rfl,
      List.cons_append] at hd
    injection hd with h5 h6
    exact absurd h5 (by decide)
  · rw [expandName_no_placeholder_data en _ (by simpa using hp),
      expandName_no_placeholder_data en _ hjoined] at hd
    have h3 := List.append_cancel_left (List.append_cancel_left hd)
    have h4 : substPlaceholder en.data ("changed." ++ key).data
        = substPlaceholder en.data ("joined" : String).data := by injection h3
    rw [hflag, substPlaceholder_cons_of_ne en.data 'c' _ (by decide),
      substPlaceholder_id_of_braceFree en.data ("joined" : String).data (by decide),
      show ("joined" : String).data = 'j' :: "oined".data from rfl] at h4
    injection h4 with h5 h6
    exact absurd h5 (by decide)

theorem processPairs_calls (en : String) :
    ∀ (qs : List (String × String × String × PyObj)) (st : MFState),
      (processPairs en st qs).calls
        = st.calls ++ qs.map (fun q => dataKey en q.1 q.2.1 q.2.2.1) := by
  intro qs
  induction qs with
  | nil => intro st; simp [processPairs]
  | cons q t ih =>
    intro st
    show (processPairs en (processPair en st q) t).calls = _
    rw [ih]
    have hcalls : (processPair en st q).calls = st.calls ++ [dataKey en q.1 q.2.1 q.2.2.1] := by
      dsimp only [processPair]
      split <;> rfl
    rw [hcalls]
    simp

theorem processPair_flags_ne (en : String) (st : MFState)
    (q : String × String × String × PyObj) (f : String)
    (h1 : expandName en "changed" ≠ f)
    (h2 : expandName en ("changed." ++ q.2.2.1) ≠ f) :
    (processPair en st q).flags f = st.flags f := by
  dsimp only [processPair]
  split
  · show setFlag (setFlag st.flags _) _ f = st.flags f
    unfold setFlag
    rw [if_neg (fun hx => h2 hx.symm), if_neg (fun hx => h1 hx.symm)]
  · rfl

theorem processPairs_flags_ne (en : String) (f : String)
    (h1 : expandName en "changed" ≠ f)
    (h2 : ∀ key, expandName en ("changed." ++ key) ≠ f) :
    ∀ (qs : List (String × String × String × PyObj)) (st : MFState),
      (processPairs en st qs).flags f = st.flags f := by
  intro qs
  induction qs with
  | nil => intro st; rfl
  | cons q t ih =>
    intro st
    show (processPairs en (processPair en st q) t).flags f = st.flags f
    rw [ih, processPair_flags_ne en st q f h1 (h2 q.2.2.1)]

theorem processPair_flags_mono (en : String) (st : MFState)
    (q : String × String × String × PyObj) (f : String) (h : st.flags f = true) :
    (processPair en st q).flags f = true := by
  dsimp only [processPair]
  split
  · show setFlag (setFlag st.flags _) _ f = true
    unfold setFlag
    split_ifs <;> simp [h]
  · exact h

theorem processPairs_flags_mono (en : String) (f : String) :
    ∀ (qs : List (String × String × String × PyObj)) (st : MFState),
      st.flags f = true → (processPairs en st qs).flags f = true := by
  intro qs
  induction qs with
  | nil => intro st h; exact h
  | cons q t ih =>
    intro st h
    exact ih (processPair en st q) (processPair_flags_mono en st q f h)

/-- Claim C4: in `_manage_flags` the change-detection loop is skipped
exactly when the endpoint's `joined` flag was already set before the event
and the hook is not a relation hook for this endpoint (observed through the
`data_changed` calls the loop makes); in particular it always runs on the
event in which `joined` first becomes true; and the `joined` toggle and the
`departed` flag setting happen whether or not the loop is skipped. -/
theorem C4_manage_flags_skip (env : EndpointEnv) (st : MFState) :
    ((isFlagSet st.flags (expandName env.endpointName "joined")
        && !strStartsWith env.hookName (env.endpointName ++ "-relation-")) = true →
      (manageFlags env st).calls = st.calls) ∧
    ((isFlagSet st.flags (expandName env.endpointName "joined")
        && !strStartsWith env.hookName (env.endpointName ++ "-relation-")) = false →
      (manageFlags env st).calls
        = st.calls ++ (allPairs env).map (fun q => dataKey env.endpointName q.1 q.2.1 q.2.2.1)) ∧
    (isFlagSet st.flags (expandName env.endpointName "joined") = false →
      (manageFlags env st).calls
        = st.calls ++ (allPairs env).map (fun q => dataKey env.endpointName q.1 q.2.1 q.2.2.1)) ∧
    ((manageFlags env st).flags (expandName env.endpointName "joined")
      = decide (env.relationIds.length > 0)) ∧
    ((strStartsWith env.hookName (env.endpointName ++ "-relation-")
        && strEndsWith env.hookName "-departed") = true →
      (manageFlags env st).flags (expandName env.endpointName "departed") = true) := by
  have hne_cj : expandName env.endpointName "changed" ≠ expandName env.endpointName "joined" :=
    expandName_short_ne _ _ _ (by decide) (by decide) (by decide) (by decide) (by decide)
  have hne_dj : expandName env.endpointName "departed" ≠ expandName env.endpointName "joined" :=
    expandName_short_ne _ _ _ (by decide) (by decide) (by decide) (by decide) (by decide)
  have hne_kj : ∀ key, expandName env.endpointName ("changed." ++ key)
      ≠ expandName env.endpointName "joined" :=
    fun key => expandName_changedKey_ne_joined env.endpointName key
  have hst2 : ∀ (fl : String → Bool) (sd : String → Option PyObj) (cs : List String) (b : Bool),
      (if b = true
        then ({ flags := setFlag fl (expandName env.endpointName "departed"),
                store := sd, calls := cs } : MFState)
        else { flags := fl, store := sd, calls := cs }).calls = cs := by
    intro fl sd cs b
    cases b <;> rfl
  have hst2f : ∀ (fl : String → Bool) (sd : String → Option PyObj) (cs : List String) (b : Bool),
      (if b = true
        then ({ flags := setFlag fl (expandName env.endpointName "departed"),
                store := sd, calls := cs } : MFState)
        else { flags := fl, store := sd, calls := cs }).flags
          (expandName env.endpointName "joined")
        = fl (expandName env.endpointName "joined") := by
    intro fl sd cs b
    cases b with
    | false => rfl
    | true =>
      show setFlag fl _ _ = _
      unfold setFlag
      rw [if_neg (fun hx => hne_dj hx.symm)]
  dsimp only [manageFlags]
  refine ⟨?_, ?_, ?_, ?_, ?_⟩
  · intro h
    rw [if_pos h, hst2]
  · intro h
    rw [if_neg (by simp [h]), processPairs_calls, hst2]
  · intro h
    rw [if_neg (by simp [isFlagSet] at h ⊢; simp [h]), processPairs_calls, hst2]
  · by_cases h : (isFlagSet st.flags (expandName env.endpointName "joined")
        && !strStartsWith env.hookName (env.endpointName ++ "-relation-")) = true
    · rw [if_pos h, hst2f]
      show toggleFlag st.flags _ _ _ = _
      unfold toggleFlag
      rw [if_pos rfl]
    · rw [if_neg (by simp_all),
        processPairs_flags_ne env.endpointName _ hne_cj hne_kj, hst2f]
      show toggleFlag st.flags _ _ _ = _
      unfold toggleFlag
      rw [if_pos rfl]
  · intro h
    have hrel : strStartsWith env.hookName (env.endpointName ++ "-relation-") = true := by
      cases hx : strStartsWith env.hookName (env.endpointName ++ "-relation-") with
      | true => rfl
      | false => rw [hx] at h; simp at h
    rw [if_neg (by simp [hrel])]
    apply processPairs_flags_mono
    rw [if_pos h]
    show setFlag _ _ _ = true
    unfold setFlag
    rw [if_pos rfl]

/-- Witness for C4 at a concrete endpoint state: a departed relation hook
with the joined flag not yet set. -/
theorem C4_manage_flags_skip_witness :
    ((isFlagSet (fun _ => false) (expandName "db" "joined")
        && !strStartsWith "db-relation-departed" ("db" ++ "-relation-")) = false ∧
     (manageFlags ⟨"db", ["db:0"], [⟨"db:0", "u/0", [("cfg", "1")]⟩], "db-relation-departed"⟩
        ⟨fun _ => false, fun _ => Option.none, []⟩).calls
       = [] ++ (allPairs ⟨"db", ["db:0"], [⟨"db:0", "u/0", [("cfg", "1")]⟩],
           "db-relation-departed"⟩).map (fun q => dataKey "db" q.1 q.2.1 q.2.2.1)) ∧
    (manageFlags ⟨"db", ["db:0"], [⟨"db:0", "u/0", [("cfg", "1")]⟩], "db-relation-departed"⟩
       ⟨fun _ => false, fun _ => Option.none, []⟩).flags (expandName "db" "joined")
      = decide ((["db:0"] : List String).length > 0) ∧
    (manageFlags ⟨"db", ["db:0"], [⟨"db:0", "u/0", [("cfg", "1")]⟩], "db-relation-departed"⟩
       ⟨fun _ => false, fun _ => Option.none, []⟩).flags (expandName "db" "departed") = true :=
  ⟨⟨rfl, (C4_manage_flags_skip ⟨"db", ["db:0"], [⟨"db:0", "u/0", [("cfg", "1")]⟩],
      "db-relation-departed"⟩ ⟨fun _ => false, fun _ => Option.none, []⟩).2.1 rfl⟩,
   (C4_manage_flags_skip ⟨"db", ["db:0"], [⟨"db:0", "u/0", [("cfg", "1")]⟩],
      "db-relation-departed"⟩ ⟨fun _ => false, fun _ => Option.none, []⟩).2.2.2.1,
   (C4_manage_flags_skip ⟨"db", ["db:0"], [⟨"db:0", "u/0", [("cfg", "1")]⟩],
      "db-relation-departed"⟩ ⟨fun _ => false, fun _ => Option.none, []⟩).2.2.2.2 rfl⟩

/-! ### Claim C1: `CombinedUnitsView` merge precedence -/

theorem rawLookup_cons (a b : String) (l : List (String × String)) (k2 : String) :
    rawLookup ((a, b) :: l) k2 = if a = k2 then some b else rawLookup l k2 := by
  by_cases h : a = k2
  · unfold rawLookup
    rw [List.find?_cons_of_pos _ (by simpa using h), if_pos h]
    rfl
  · unfold rawLookup
    rw [List.find?_cons_of_neg _ (by simpa using h), if_neg h]

theorem rawInsert_cons_eq (k v k0 v0 : String) (t : List (String × String)) (h : k0 = k) :
    rawInsert ((k0, v0) :: t) k v = (k0, v) :: t := by
  simp [rawInsert, h]

theorem rawInsert_cons_ne (k v k0 v0 : String) (t : List (String × String)) (h : ¬k0 = k) :
    rawInsert ((k0, v0) :: t) k v = (k0, v0) :: rawInsert t k v := by
  simp [rawInsert, h]

theorem rawLookup_rawInsert (m : List (String × String)) (k v k2 : String) :
    rawLookup (rawInsert m k v) k2 = if k2 = k then some v else rawLookup m k2 := by
  induction m with
  | nil =>
    show rawLookup [(k, v)] k2 = _
    rw [rawLookup_cons]
    by_cases h : k = k2
    · rw [if_pos h, if_pos h.symm]
    · rw [if_neg h, if_neg (fun hx => h hx.symm)]
  | cons p t ih =>
    obtain ⟨k0, v0⟩ := p
    by_cases h0 : k0 = k
    · rw [rawInsert_cons_eq k v k0 v0 t h0, rawLookup_cons, rawLookup_cons]
      by_cases h2 : k0 = k2
      · rw [if_pos h2, if_pos (h2.symm.trans h0)]
      · rw [if_neg h2, if_neg (fun hx : k2 = k => h2 (h0.trans hx.symm))]
        rw [if_neg h2]
    · rw [rawInsert_cons_ne k v k0 v0 t h0, rawLookup_cons, rawLookup_cons]
      by_cases h2 : k0 = k2
      · rw [if_pos h2, if_pos h2,
          if_neg (fun hx : k2 = k => h0 (h2.trans hx))]
      · rw [if_neg h2, if_neg h2, ih]

theorem mem_keys_of_rawLookup_some {t : List (String × String)} {k v : String}
    (h : rawLookup t k = some v) : k ∈ t.map Prod.fst := by
  unfold rawLookup at h
  cases hf : t.find? (fun p => p.1 == k) with
  | none => rw [hf] at h; cases h
  | some p =>
    have h1 := List.find?_some hf
    have h2 : p ∈ t := List.mem_of_find?_eq_some hf
    have h3 : p.1 = k := by simpa using h1
    exact List.mem_map.mpr ⟨p, h2, h3⟩

theorem rawLookup_insertItems (items : List (String × String))
    (hnd : (items.map Prod.fst).Nodup) :
    ∀ (m : List (String × String)) (k : String),
      rawLookup (insertItems m items) k
        = match rawLookup items k with
          | some v => some v
          | Option.none => rawLookup m k := by
  induction items with
  | nil => intro m k; rfl
  | cons p t ih =>
    intro m k
    obtain ⟨k0, v0⟩ := p
    simp only [List.map, List.nodup_cons] at hnd
    show rawLookup (insertItems (rawInsert m k0 v0) t) k = _
    rw [ih hnd.2]
    cases hLt : rawLookup t k with
    | some v =>
      have hkmem : k ∈ t.map Prod.fst := mem_keys_of_rawLookup_some hLt
      have hk0 : ¬(k0 = k) := fun hx => hnd.1 (hx ▸ hkmem)
      have : rawLookup ((k0, v0) :: t) k = some v := by
        simp only [rawLookup, List.find?]
        rw [show ((k0, v0).1 == k) = false from by simpa using hk0]
        simpa [rawLookup] using hLt
      rw [this]
    | none =>
      rw [rawLookup_rawInsert]
      by_cases hk : k = k0
      · have : rawLookup ((k0, v0) :: t) k = some v0 := by
          simp [rawLookup, List.find?, hk]
        rw [this, if_pos hk]
      · have : rawLookup ((k0, v0) :: t) k = Option.none := by
          simp only [rawLookup, List.find?]
          rw [show ((k0, v0).1 == k) = false from by simpa using fun hx : k0 = k => hk hx.symm]
          simpa [rawLookup] using hLt
        rw [this, if_neg hk]

theorem rawLookup_merged_fold :
    ∀ (l : List RelatedUnit) (k : String),
      (∀ u ∈ l, (u.received_raw.map Prod.fst).Nodup) →
      rawLookup (l.reverse.foldl (fun m u => insertItems m u.received_raw) []) k
        = (l.find? (fun u => (rawLookup u.received_raw k).isSome)).bind
            (fun u => rawLookup u.received_raw k) := by
  intro l
  induction l with
  | nil => intro k _; rfl
  | cons u t ih =>
    intro k h
    rw [List.reverse_cons, List.foldl_append]
    show rawLookup (insertItems (t.reverse.foldl (fun m u => insertItems m u.received_raw) [])
      u.received_raw) k = _
    rw [rawLookup_insertItems _ (h u (by simp)) _ k]
    cases hU : rawLookup u.received_raw k with
    | some v =>
      rw [List.find?_cons_of_pos _ (by simp [hU])]
      simp [hU]
    | none =>
      rw [List.find?_cons_of_neg _ (by simp [hU])]
      rw [← ih k (fun x hx => h x (by simp [hx]))]

/-- Claim C1: the merged received data of a `CombinedUnitsView` maps each
key to the value of the earliest unit in the `(relation-id, unit-name)`
ascending sort order among the units whose raw data contain that key — even
though the implementation folds the units in reverse sorted order. -/
theorem C1_merge_precedence (us : List RelatedUnit) (k : String)
    (h : ∀ u ∈ us, (u.received_raw.map Prod.fst).Nodup) :
    rawLookup (combinedRaw us) k
      = ((sortUnits us).find? (fun u => (rawLookup u.received_raw k).isSome)).bind
          (fun u => rawLookup u.received_raw k) := by
  unfold combinedRaw
  exact rawLookup_merged_fold (sortUnits us) k
    (fun u hu => h u ((List.mem_insertionSort unitLe).mp hu))

/-- Witness for C1: the example of the claim, with relation `db:1` unit `u`
providing `{k0: a, k1: b}` and relation `db:2` unit `u2` providing
`{k0: c, k2: d}`: `k0` resolves to relation 1's value `a`, `k1` to `b`,
`k2` to `d`. -/
theorem C1_merge_precedence_witness :
    (∀ u ∈ [RelatedUnit.mk "db:1" "u" [("k0", "a"), ("k1", "b")],
            RelatedUnit.mk "db:2" "u2" [("k0", "c"), ("k2", "d")]],
      (u.received_raw.map Prod.fst).Nodup) ∧
    rawLookup (combinedRaw [RelatedUnit.mk "db:1" "u" [("k0", "a"), ("k1", "b")],
      RelatedUnit.mk "db:2" "u2" [("k0", "c"), ("k2", "d")]]) "k0" = some "a" ∧
    rawLookup (combinedRaw [RelatedUnit.mk "db:1" "u" [("k0", "a"), ("k1", "b")],
      RelatedUnit.mk "db:2" "u2" [("k0", "c"), ("k2", "d")]]) "k1" = some "b" ∧
    rawLookup (combinedRaw [RelatedUnit.mk "db:1" "u" [("k0", "a"), ("k1", "b")],
      RelatedUnit.mk "db:2" "u2" [("k0", "c"), ("k2", "d")]]) "k2" = some "d" ∧
    rawLookup (combinedRaw [RelatedUnit.mk "db:1" "u" [("k0", "a"), ("k1", "b")],
      RelatedUnit.mk "db:2" "u2" [("k0", "c"), ("k2", "d")]]) "k0"
      = (((sortUnits [RelatedUnit.mk "db:1" "u" [("k0", "a"), ("k1", "b")],
          RelatedUnit.mk "db:2" "u2" [("k0", "c"), ("k2", "d")]]).find?
            (fun u => (rawLookup u.received_raw "k0").isSome)).bind
          (fun u => rawLookup u.received_raw "k0")) :=
  ⟨by decide, rfl, rfl, rfl,
   C1_merge_precedence [RelatedUnit.mk "db:1" "u" [("k0", "a"), ("k1", "b")],
     RelatedUnit.mk "db:2" "u2" [("k0", "c"), ("k2", "d")]] "k0" (by decide)⟩

/-! ### Claim C3: per-pair change detection -/

/-- Claim C3: for one received pair processed by the change-detection loop,
if the fetched value differs from the stored baseline for the
`(endpoint, relation id, unit name, field)` scoped key (or no baseline was
stored), both `changed` and `changed.<field>` are set and the fetched value
becomes the new baseline; if it equals the baseline, the loop body leaves
every flag as it was. -/
theorem C3_change_detection (en relId un field : String) (v : PyObj) (st : MFState) :
    (st.store (dataKey en relId un field) = Option.none →
      ((processPair en st (relId, un, field, v)).flags (expandName en "changed") = true ∧
       (processPair en st (relId, un, field, v)).flags
         (expandName en ("changed." ++ field)) = true ∧
       (processPair en st (relId, un, field, v)).store (dataKey en relId un field) = some v)) ∧
    (∀ a, st.store (dataKey en relId un field) = some a → pyEqv a v = false →
      ((processPair en st (relId, un, field, v)).flags (expandName en "changed") = true ∧
       (processPair en st (relId, un, field, v)).flags
         (expandName en ("changed." ++ field)) = true ∧
       (processPair en st (relId, un, field, v)).store (dataKey en relId un field) = some v)) ∧
    (∀ a, st.store (dataKey en relId un field) = some a → pyEqv a v = true →
      (processPair en st (relId, un, field, v)).flags = st.flags) := by
  have hsetf : ∀ (fs : String → Bool),
      setFlag (setFlag fs (expandName en "changed")) (expandName en ("changed." ++ field))
        (expandName en "changed") = true := by
    intro fs
    unfold setFlag
    by_cases hx : expandName en "changed" = expandName en ("changed." ++ field)
    · rw [if_pos hx]
    · rw [if_neg hx, if_pos rfl]
  have hsetf2 : ∀ (fs : String → Bool),
      setFlag (setFlag fs (expandName en "changed")) (expandName en ("changed." ++ field))
        (expandName en ("changed." ++ field)) = true := by
    intro fs
    unfold setFlag
    rw [if_pos rfl]
  have hstore : (dataChanged st.store (dataKey en relId un field) v).2
      (dataKey en relId un field) = some v := by
    show (if dataKey en relId un field = dataKey en relId un field
      then some v else st.store (dataKey en relId un field)) = some v
    rw [if_pos rfl]
  have hPtrue : (dataChanged st.store (dataKey en relId un field) v).1 = true →
      processPair en st (relId, un, field, v)
        = { flags := setFlag (setFlag st.flags (expandName en "changed"))
              (expandName en ("changed." ++ field)),
            store := (dataChanged st.store (dataKey en relId un field) v).2,
            calls := st.calls ++ [dataKey en relId un field] } := by
    intro hr
    dsimp only [processPair]
    rw [if_pos hr]
  have hPfalse : (dataChanged st.store (dataKey en relId un field) v).1 = false →
      processPair en st (relId, un, field, v)
        = { flags := st.flags,
            store := (dataChanged st.store (dataKey en relId un field) v).2,
            calls := st.calls ++ [dataKey en relId un field] } := by
    intro hr
    dsimp only [processPair]
    rw [if_neg (by simp [hr])]
  refine ⟨?_, ?_, ?_⟩
  · intro h
    have hr : (dataChanged st.store (dataKey en relId un field) v).1 = true := by
      show (match st.store (dataKey en relId un field) with
        | Option.none => true
        | some a => !pyEqv a v) = true
      rw [h]
    rw [hPtrue hr]
    exact ⟨hsetf st.flags, hsetf2 st.flags, hstore⟩
  · intro a ha hne
    have hr : (dataChanged st.store (dataKey en relId un field) v).1 = true := by
      show (match st.store (dataKey en relId un field) with
        | Option.none => true
        | some a => !pyEqv a v) = true
      rw [ha]
      simp [hne]
    rw [hPtrue hr]
    exact ⟨hsetf st.flags, hsetf2 st.flags, hstore⟩
  · intro a ha heq
    have hr : (dataChanged st.store (dataKey en relId un field) v).1 = false := by
      show (match st.store (dataKey en relId un field) with
        | Option.none => true
        | some a => !pyEqv a v) = false
      rw [ha]
      simp [heq]
    rw [hPfalse hr]

/-- Witness for C3: a concrete store where the field's baseline differs,
matches, or is absent. -/
theorem C3_change_detection_witness :
    ((fun x => if x = dataKey "db" "db:0" "u/1" "cfg" then some (PyObj.int 1)
       else Option.none) (dataKey "db" "db:0" "u/1" "cfg") = some (PyObj.int 1) ∧
     pyEqv (PyObj.int 1) (PyObj.int 2) = false ∧
     (processPair "db" ⟨fun _ => false, fun x => if x = dataKey "db" "db:0" "u/1" "cfg"
         then some (PyObj.int 1) else Option.none, []⟩
       ("db:0", "u/1", "cfg", PyObj.int 2)).flags (expandName "db" "changed") = true ∧
     (processPair "db" ⟨fun _ => false, fun x => if x = dataKey "db" "db:0" "u/1" "cfg"
         then some (PyObj.int 1) else Option.none, []⟩
       ("db:0", "u/1", "cfg", PyObj.int 2)).store (dataKey "db" "db:0" "u/1" "cfg")
       = some (PyObj.int 2)) ∧
    (pyEqv (PyObj.int 1) (PyObj.int 1) = true ∧
     (processPair "db" ⟨fun _ => false, fun x => if x = dataKey "db" "db:0" "u/1" "cfg"
         then some (PyObj.int 1) else Option.none, []⟩
       ("db:0", "u/1", "cfg", PyObj.int 1)).flags
       = (fun _ => false : String → Bool)) := by
  refine ⟨⟨rfl, rfl, ?_, ?_⟩, rfl, ?_⟩
  · exact ((C3_change_detection "db" "db:0" "u/1" "cfg" (PyObj.int 2)
      ⟨fun _ => false, fun x => if x = dataKey "db" "db:0" "u/1" "cfg"
        then some (PyObj.int 1) else Option.none, []⟩).2.1 (PyObj.int 1) rfl rfl).1
  · exact ((C3_change_detection "db" "db:0" "u/1" "cfg" (PyObj.int 2)
      ⟨fun _ => false, fun x => if x = dataKey "db" "db:0" "u/1" "cfg"
        then some (PyObj.int 1) else Option.none, []⟩).2.1 (PyObj.int 1) rfl rfl).2.2
  · exact (C3_change_detection "db" "db:0" "u/1" "cfg" (PyObj.int 1)
      ⟨fun _ => false, fun x => if x = dataKey "db" "db:0" "u/1" "cfg"
        then some (PyObj.int 1) else Option.none, []⟩).2.2 (PyObj.int 1) rfl rfl

/-! ### Claim C5: serialization round trip.  Size measures and number
parsing correctness. -/

/-- Fuel measure for `parseValue`: one unit per value and per container
entry.  A sum, hence invariant under reordering of dict entries. -/
def szV : PyObj → Nat
  | .none => 1
  | .bool _ => 1
  | .int _ => 1
  | .str _ => 1
  | .list xs => 1 + szL xs
  | .dict xs => 1 + szD xs
where
  szL : List PyObj → Nat
    | [] => 0
    | x :: t => 1 + szV x + szL t
  szD : List (String × PyObj) → Nat
    | [] => 0
    | (_, v) :: t => 1 + szV v + szD t

theorem szD_eq_sum : ∀ xs : List (String × PyObj),
    szV.szD xs = (xs.map (fun p => 1 + szV p.2)).sum := by
  intro xs
  induction xs with
  | nil => rfl
  | cons p t ih =>
    obtain ⟨k, v⟩ := p
    show 1 + szV v + szV.szD t = _
    rw [ih]
    simp [Nat.add_assoc]

theorem szD_sortByKey (xs : List (String × PyObj)) :
    szV.szD (sortByKey xs) = szV.szD xs := by
  rw [szD_eq_sum, szD_eq_sum]
  exact ((List.perm_insertionSort keyLe xs).map (fun p => 1 + szV p.2)).sum_eq

theorem digitChar_toNat {d : Nat} (h : d < 10) : (digitChar d).toNat = 48 + d := by
  interval_cases d <;> rfl

theorem isDigitC_digitChar {d : Nat} (h : d < 10) : isDigitC (digitChar d) = true := by
  simp [isDigitC, digitChar_toNat h]
  omega

theorem digitVal_digitChar {d : Nat} (h : d < 10) : digitVal (digitChar d) = d := by
  simp [digitVal, digitChar_toNat h]

theorem natDigitsF_head : ∀ (f n : Nat), n < f →
    ∃ (d : Nat) (t : List Char), d < 10 ∧ natDigitsF f n = digitChar d :: t := by
  intro f
  induction f with
  | zero => intro n h; omega
  | succ f ih =>
    intro n h
    by_cases h10 : n < 10
    · exact ⟨n, [], h10, by simp [natDigitsF, h10]⟩
    · have hdiv : n / 10 < f := by
        have := Nat.div_lt_self (by omega : 0 < n) (by omega : 1 < 10)
        omega
      obtain ⟨d, t, hd, ht⟩ := ih (n / 10) hdiv
      exact ⟨d, t ++ [digitChar (n % 10)], hd, by simp [natDigitsF, h10, ht]⟩

theorem parseDigitsAux_natDigits : ∀ (f n : Nat), n < f → ∀ (acc : Nat) (rest : List Char),
    parseDigitsAux (natDigitsF f n ++ rest) acc
      = parseDigitsAux rest (acc * 10 ^ (natDigitsF f n).length + n) := by
  intro f
  induction f with
  | zero => intro n h; omega
  | succ f ih =>
    intro n h acc rest
    by_cases h10 : n < 10
    · rw [show natDigitsF (f + 1) n = [digitChar n] from by simp [natDigitsF, h10]]
      show parseDigitsAux (digitChar n :: rest) acc = _
      rw [show parseDigitsAux (digitChar n :: rest) acc
          = parseDigitsAux rest (acc * 10 + digitVal (digitChar n)) from by
        simp [parseDigitsAux, isDigitC_digitChar h10]]
      rw [digitVal_digitChar h10]
      norm_num
    · have hdiv : n / 10 < f := by
        have := Nat.div_lt_self (by omega : 0 < n) (by omega : 1 < 10)
        omega
      rw [show natDigitsF (f + 1) n
          = natDigitsF f (n / 10) ++ [digitChar (n % 10)] from by simp [natDigitsF, h10]]
      rw [List.append_assoc, ih (n / 10) hdiv acc _]
      rw [show ([digitChar (n % 10)] ++ rest) = digitChar (n % 10) :: rest from rfl]
      rw [show parseDigitsAux (digitChar (n % 10) :: rest)
            (acc * 10 ^ (natDigitsF f (n / 10)).length + n / 10)
          = parseDigitsAux rest ((acc * 10 ^ (natDigitsF f (n / 10)).length + n / 10) * 10
              + digitVal (digitChar (n % 10))) from by
        simp [parseDigitsAux, isDigitC_digitChar (by omega : n % 10 < 10)]]
      rw [digitVal_digitChar (by omega : n % 10 < 10)]
      have hlen : (natDigitsF f (n / 10) ++ [digitChar (n % 10)]).length
          = (natDigitsF f (n / 10)).length + 1 := by simp
      rw [hlen]
      congr 1
      rw [pow_succ]
      have := Nat.div_add_mod n 10
      ring_nf
      omega

/-- Head condition under which the greedy number parser stops exactly at
`rest`. -/
def NumBoundary : List Char → Prop
  | [] => True
  | c :: _ => isDigitC c = false ∧ ¬(c = '.' ∨ c = 'e' ∨ c = 'E')

theorem parseDigitsAux_stop (rest : List Char) (acc : Nat) (h : NumBoundary rest) :
    parseDigitsAux rest acc = (acc, rest) := by
  cases rest with
  | nil => rfl
  | cons c t =>
    obtain ⟨h1, _⟩ := h
    simp [parseDigitsAux, h1]

theorem parseNatNum_natDigits (n : Nat) (rest : List Char) (h : NumBoundary rest) :
    parseNatNum (natDigits n ++ rest) = some (n, rest) := by
  obtain ⟨d, t, hd, ht⟩ := natDigitsF_head (n + 1) n (by omega)
  have hfull : parseDigitsAux (natDigits n ++ rest) 0 = (n, rest) := by
    unfold natDigits
    rw [parseDigitsAux_natDigits (n + 1) n (by omega) 0 rest, parseDigitsAux_stop rest _ h]
    simp
  unfold natDigits at hfull ⊢
  rw [ht] at hfull ⊢
  rw [show (digitChar d :: t) ++ rest = digitChar d :: (t ++ rest) from rfl] at hfull ⊢
  simp only [parseNatNum]
  rw [show isDigitC (digitChar d) = true from isDigitC_digitChar hd]
  simp only [if_true]
  rw [hfull]
  cases hr : rest with
  | nil => rfl
  | cons c2 t2 =>
    rw [hr] at h
    obtain ⟨_, h2⟩ := h
    simp [h2]

theorem parseNumber_intChars (n : Int) (rest : List Char) (h : NumBoundary rest) :
    parseNumber (intChars n ++ rest) = some (n, rest) := by
  by_cases hneg : n < 0
  · rw [show intChars n = '-' :: natDigits n.natAbs from by simp [intChars, hneg]]
    show parseNumber ('-' :: (natDigits n.natAbs ++ rest)) = _
    simp only [parseNumber, if_true]
    rw [parseNatNum_natDigits n.natAbs rest h]
    show some (-((n.natAbs : Nat) : Int), rest) = some (n, rest)
    rw [show -((n.natAbs : Nat) : Int) = n from by omega]
  · rw [show intChars n = natDigits n.toNat from by simp [intChars, hneg]]
    obtain ⟨d, t, hd, ht⟩ := natDigitsF_head (n.toNat + 1) n.toNat (by omega)
    have ht' : natDigits n.toNat = digitChar d :: t := ht
    have hd45 : digitChar d ≠ '-' := by
      intro hx
      have := congrArg Char.toNat hx
      rw [digitChar_toNat hd] at this
      simp at this
      omega
    rw [ht', show (digitChar d :: t) ++ rest = digitChar d :: (t ++ rest) from rfl]
    simp only [parseNumber]
    rw [if_neg hd45]
    rw [show digitChar d :: (t ++ rest) = natDigits n.toNat ++ rest from by rw [ht']; rfl,
      parseNatNum_natDigits n.toNat rest h]
    show some (((n.toNat : Nat) : Int), rest) = some (n, rest)
    rw [show ((n.toNat : Nat) : Int) = n from by omega]

theorem hexVal_hexDigitChar {d : Nat} (h : d < 16) : hexVal (hexDigitChar d) = some d := by
  interval_cases d <;> decide

theorem parseUEsc_ctrl (c : Char) (hc : c.toNat < 32) (r : List Char) :
    parseUEsc ('0' :: '0' :: hexDigitChar (c.toNat / 16) :: hexDigitChar (c.toNat % 16) :: r)
      = some (c.toNat, r) := by
  simp [parseUEsc, hexVal_hexDigitChar (show c.toNat / 16 < 16 by omega),
    hexVal_hexDigitChar (show c.toNat % 16 < 16 by omega),
    show hexVal '0' = some 0 from rfl]
  omega

theorem parseStrBody_escape : ∀ (cs : List Char) (fuel : Nat) (rest : List Char),
    (escapeChars cs).length < fuel →
    parseStrBody fuel (escapeChars cs ++ ('"' :: rest)) = some (cs, rest) := by
  intro cs
  induction cs with
  | nil =>
    intro fuel rest hf
    obtain ⟨f, rfl⟩ : ∃ f, fuel = f + 1 := ⟨fuel - 1, by omega⟩
    simp [escapeChars, parseStrBody]
  | cons c cs ih =>
    intro fuel rest hf
    rw [show escapeChars (c :: cs) = escapeChar c ++ escapeChars cs from rfl] at hf ⊢
    rw [List.append_assoc]
    obtain ⟨f, rfl⟩ : ∃ f, fuel = f + 1 := ⟨fuel - 1, by omega⟩
    by_cases hq : c = '"'
    · rw [show escapeChar c = ['\\', '"'] from by simp [escapeChar, hq]] at hf ⊢
      rw [show (['\\', '"'] : List Char) ++ (escapeChars cs ++ ('"' :: rest))
          = '\\' :: '"' :: (escapeChars cs ++ ('"' :: rest)) from rfl]
      have hf2 : (escapeChars cs).length < f := by
        simp [List.length_append] at hf
        omega
      simp [parseStrBody, ih f rest hf2, hq]
    · by_cases hb : c = '\\'
      · rw [show escapeChar c = ['\\', '\\'] from by simp [escapeChar, hq, hb]] at hf ⊢
        rw [show (['\\', '\\'] : List Char) ++ (escapeChars cs ++ ('"' :: rest))
            = '\\' :: '\\' :: (escapeChars cs ++ ('"' :: rest)) from rfl]
        have hf2 : (escapeChars cs).length < f := by
          simp [List.length_append] at hf
          omega
        simp [parseStrBody, ih f rest hf2, hb]
      · by_cases hc : c.toNat < 32
        · rw [show escapeChar c = ['\\', 'u', '0', '0', hexDigitChar (c.toNat / 16),
              hexDigitChar (c.toNat % 16)] from by simp [escapeChar, hq, hb, hc]] at hf ⊢
          rw [show (['\\', 'u', '0', '0', hexDigitChar (c.toNat / 16),
              hexDigitChar (c.toNat % 16)] : List Char) ++ (escapeChars cs ++ ('"' :: rest))
              = '\\' :: 'u' :: ('0' :: '0' :: hexDigitChar (c.toNat / 16)
                :: hexDigitChar (c.toNat % 16) :: (escapeChars cs ++ ('"' :: rest))) from rfl]
          have hf2 : (escapeChars cs).length < f := by
            simp [List.length_append] at hf
            omega
          have hu := parseUEsc_ctrl c hc (escapeChars cs ++ ('"' :: rest))
          have hsur : ¬(55296 ≤ c.toNat ∧ c.toNat < 57344) := by omega
          simp only [parseStrBody]
          simp only [show ('\\' = '"') = False from by simp,
            show ('u' = '"') = False from by simp, show ('u' = '\\') = False from by simp,
            show ('u' = '/') = False from by simp, show ('u' = 'b') = False from by simp,
            show ('u' = 'f') = False from by simp, show ('u' = 'n') = False from by simp,
            show ('u' = 'r') = False from by simp, show ('u' = 't') = False from by simp,
            if_false, if_true, hu]
          rw [if_neg hsur, Char.ofNat_toNat c, ih f rest hf2]
          rfl
        · rw [show escapeChar c = [c] from by simp [escapeChar, hq, hb, hc]] at hf ⊢
          rw [show ([c] : List Char) ++ (escapeChars cs ++ ('"' :: rest))
              = c :: (escapeChars cs ++ ('"' :: rest)) from rfl]
          have hf2 : (escapeChars cs).length < f := by
            simp [List.length_append] at hf
            omega
          simp [parseStrBody, hq, hb, hc, ih f rest hf2]

theorem expectChars_append : ∀ (lit rest : List Char), expectChars lit (lit ++ rest) = some rest := by
  intro lit
  induction lit with
  | nil => intro rest; rfl
  | cons c t ih => intro rest; simp [expectChars, ih rest]

theorem skipWs_not_ws (c : Char) (t : List Char) (h : isWs c = false) :
    skipWs (c :: t) = c :: t := by
  simp [skipWs, h]

/-- Possible first characters of a serialized value. -/
def GoodHead (c : Char) : Prop :=
  c = '"' ∨ c = 't' ∨ c = 'f' ∨ c = 'n' ∨ c = '[' ∨ c = '{' ∨ c = '-' ∨ isDigitC c = true

theorem goodHead_facts {c : Char} (h : GoodHead c) :
    isWs c = false ∧ c ≠ ']' ∧ c ≠ '}' := by
  rcases h with h | h | h | h | h | h | h | h
  all_goals try (subst h; refine ⟨rfl, by decide, by decide⟩)
  have hn : 48 ≤ c.toNat ∧ c.toNat ≤ 57 := by
    simpa [isDigitC] using h
  refine ⟨?_, ?_, ?_⟩
  · simp only [isWs, Bool.or_eq_false_iff, decide_eq_false_iff_not]
    refine ⟨⟨⟨?_, ?_⟩, ?_⟩, ?_⟩ <;> (intro hx; subst hx; exact absurd hn (by decide))
  · intro hx; subst hx; exact absurd hn (by decide)
  · intro hx; subst hx; exact absurd hn (by decide)

theorem dumps_head : ∀ v : PyObj, ∃ (c : Char) (t : List Char),
    dumps v = c :: t ∧ GoodHead c := by
  intro v
  cases v with
  | none => exact ⟨'n', _, rfl, by simp [GoodHead]⟩
  | bool b =>
    cases b with
    | true => exact ⟨'t', _, rfl, by simp [GoodHead]⟩
    | false => exact ⟨'f', _, rfl, by simp [GoodHead]⟩
  | str s => exact ⟨'"', _, rfl, by simp [GoodHead]⟩
  | list xs => exact ⟨'[', _, rfl, by simp [GoodHead]⟩
  | dict xs => exact ⟨'{', _, rfl, by simp [GoodHead]⟩
  | int n =>
    by_cases hneg : n < 0
    · refine ⟨'-', natDigits n.natAbs, ?_, by simp [GoodHead]⟩
      show intChars n = _
      simp [intChars, hneg]
    · obtain ⟨d, t, hd, ht⟩ := natDigitsF_head (n.toNat + 1) n.toNat (by omega)
      refine ⟨digitChar d, t ++ [], ?_, ?_⟩
      · show intChars n = _
        rw [show intChars n = natDigits n.toNat from by simp [intChars, hneg]]
        unfold natDigits
        rw [ht]
        simp
      · right; right; right; right; right; right; right
        exact isDigitC_digitChar hd

theorem wfNodupList_iff : ∀ xs : List PyObj,
    wfNodup.wfNodupList xs = true ↔ ∀ x ∈ xs, wfNodup x = true := by
  intro xs
  induction xs with
  | nil => simp [wfNodup.wfNodupList]
  | cons x t ih =>
    show (wfNodup x && wfNodup.wfNodupList t) = true ↔ _
    simp [ih]

theorem wfNodupPairs_iff : ∀ xs : List (String × PyObj),
    wfNodup.wfNodupPairs xs = true ↔ ∀ p ∈ xs, wfNodup p.2 = true := by
  intro xs
  induction xs with
  | nil => simp [wfNodup.wfNodupPairs]
  | cons p t ih =>
    obtain ⟨k, v⟩ := p
    show (wfNodup v && wfNodup.wfNodupPairs t) = true ↔ _
    simp [ih]

theorem keysSortedList_iff : ∀ xs : List PyObj,
    keysSorted.keysSortedList xs = true ↔ ∀ x ∈ xs, keysSorted x = true := by
  intro xs
  induction xs with
  | nil => simp [keysSorted.keysSortedList]
  | cons x t ih =>
    show (keysSorted x && keysSorted.keysSortedList t) = true ↔ _
    simp [ih]

theorem keysSortedPairs_iff : ∀ xs : List (String × PyObj),
    keysSorted.keysSortedPairs xs = true ↔ ∀ p ∈ xs, keysSorted p.2 = true := by
  intro xs
  induction xs with
  | nil => simp [keysSorted.keysSortedPairs]
  | cons p t ih =>
    obtain ⟨k, v⟩ := p
    show (keysSorted v && keysSorted.keysSortedPairs t) = true ↔ _
    simp [ih]

theorem canonList_eq_map : ∀ xs : List PyObj, canon.canonList xs = xs.map canon := by
  intro xs
  induction xs with
  | nil => rfl
  | cons x t ih => show canon x :: canon.canonList t = _; rw [ih]; rfl

theorem canonPairs_eq_map : ∀ xs : List (String × PyObj),
    canon.canonPairs xs = xs.map (fun p => (p.1, canon p.2)) := by
  intro xs
  induction xs with
  | nil => rfl
  | cons p t ih =>
    obtain ⟨k, v⟩ := p
    show (k, canon v) :: canon.canonPairs t = _
    rw [ih]
    rfl

theorem dumpsPairs_eq_map : ∀ xs : List (String × PyObj),
    dumps.dumpsPairs xs = xs.map (fun p => (p.1, dumps p.2)) := by
  intro xs
  induction xs with
  | nil => rfl
  | cons p t ih =>
    obtain ⟨k, v⟩ := p
    show (k, dumps v) :: dumps.dumpsPairs t = _
    rw [ih]
    rfl

theorem sortByKey_map {β γ : Type} (f : β → γ) (xs : List (String × β)) :
    sortByKey (xs.map (fun p => (p.1, f p.2)))
      = (sortByKey xs).map (fun p => (p.1, f p.2)) := by
  unfold sortByKey
  rw [← List.map_insertionSort keyLe keyLe (fun p => (p.1, f p.2)) xs]
  intro a _ b _
  exact Iff.rfl

theorem keys_of_map_snd {β γ : Type} (f : β → γ) (xs : List (String × β)) :
    (xs.map (fun p => (p.1, f p.2))).map Prod.fst = xs.map Prod.fst := by
  induction xs with
  | nil => rfl
  | cons p t ih => simpa using ih

theorem pyDictInsert_append {k : String} {v : PyObj} (acc : List (String × PyObj))
    (h : k ∉ acc.map Prod.fst) : pyDictInsert acc k v = acc ++ [(k, v)] := by
  induction acc with
  | nil => rfl
  | cons p t ih =>
    obtain ⟨k0, v0⟩ := p
    simp only [List.map, List.mem_cons, not_or] at h
    show (if k0 = k then (k0, v) :: t else (k0, v0) :: pyDictInsert t k v) = _
    rw [if_neg (fun hx => h.1 hx.symm), ih h.2]
    rfl

theorem buildDict_nodup (ps : List (String × PyObj)) (h : (ps.map Prod.fst).Nodup) :
    buildDict ps = ps := by
  have main : ∀ (qs acc : List (String × PyObj)), (qs.map Prod.fst).Nodup →
      (∀ k ∈ qs.map Prod.fst, k ∉ acc.map Prod.fst) →
      qs.foldl (fun m p => pyDictInsert m p.1 p.2) acc = acc ++ qs := by
    intro qs
    induction qs with
    | nil => intro acc _ _; simp
    | cons p t ih =>
      intro acc hnd hdis
      obtain ⟨k, v⟩ := p
      show t.foldl _ (pyDictInsert acc k v) = _
      rw [pyDictInsert_append acc (hdis k (by simp))]
      have hside : ∀ k2 ∈ t.map Prod.fst, k2 ∉ (acc ++ [(k, v)]).map Prod.fst := by
        intro k2 hk2
        have h1 : k2 ∉ acc.map Prod.fst := hdis k2 (by simp [hk2])
        have h2 : ¬k2 = k := by
          simp only [List.map, List.nodup_cons] at hnd
          intro hx
          exact hnd.1 (hx ▸ hk2)
        simp only [List.map_append, List.mem_append, List.map]
        rintro (hx | hx)
        · exact h1 hx
        · simp at hx
          exact h2 hx
      rw [ih (acc ++ [(k, v)]) (by simp only [List.map, List.nodup_cons] at hnd; exact hnd.2)
        hside]
      simp
  have := main ps [] h (by simp)
  simpa using this

theorem strMk_data (s : String) : String.mk s.data = s := by
  cases s
  rfl

theorem szV_pos : ∀ v : PyObj, 1 ≤ szV v := by
  intro v
  cases v <;> simp [szV]

theorem sizeOf_lt_list {x : PyObj} {xs : List PyObj} (h : x ∈ xs) :
    sizeOf x < sizeOf (PyObj.list xs) := by
  have := List.sizeOf_lt_of_mem h
  simp only [PyObj.list.sizeOf_spec]
  omega

theorem sizeOf_lt_dict {p : String × PyObj} {xs : List (String × PyObj)} (h : p ∈ xs) :
    sizeOf p.2 < sizeOf (PyObj.dict xs) := by
  have h1 := List.sizeOf_lt_of_mem h
  obtain ⟨k, v⟩ := p
  simp only [PyObj.dict.sizeOf_spec]
  simp at h1
  omega

theorem strChars_length (s : String) : 2 ≤ (strChars s).length := by
  simp [strChars]

theorem szV_le_dumps_length : ∀ v : PyObj, szV v ≤ (dumps v).length := by
  apply sizeOfRec
  intro v IH
  cases v with
  | none => decide
  | bool b => cases b <;> decide
  | str s =>
    show 1 ≤ (strChars s).length
    have := strChars_length s
    omega
  | int n =>
    obtain ⟨c, t, heq, _⟩ := dumps_head (.int n)
    show szV (.int n) ≤ (dumps (.int n)).length
    rw [heq]
    simp [szV]
  | list xs =>
    have hL : ∀ ys : List PyObj, (∀ x ∈ ys, sizeOf x < sizeOf (PyObj.list xs)) →
        szV.szL ys ≤ (dumps.dumpsList ys).length + 1 := by
      intro ys
      induction ys with
      | nil => intro _; simp [szV.szL, dumps.dumpsList]
      | cons x t ihL =>
        intro hsz
        cases t with
        | nil =>
          have h1 := IH x (hsz x (by simp))
          show 1 + szV x + szV.szL [] ≤ (dumps x).length + 1
          simp only [szV.szL]
          omega
        | cons y t2 =>
          have h1 := IH x (hsz x (by simp))
          have h2 := ihL (fun z hz => hsz z (by simp at hz ⊢; tauto))
          show 1 + szV x + szV.szL (y :: t2) ≤
            (dumps x ++ ',' :: ' ' :: dumps.dumpsList (y :: t2)).length + 1
          simp only [List.length_append, List.length_cons]
          omega
    have := hL xs (fun x hx => sizeOf_lt_list hx)
    show 1 + szV.szL xs ≤ ('[' :: (dumps.dumpsList xs ++ [']'])).length
    simp only [List.length_cons, List.length_append]
    simp at this ⊢
    omega
  | dict xs =>
    have hD : ∀ ys : List (String × PyObj),
        (∀ p ∈ ys, sizeOf p.2 < sizeOf (PyObj.dict xs)) →
        szV.szD ys ≤ (joinMembers (dumps.dumpsPairs ys)).length + 1 := by
      intro ys
      induction ys with
      | nil => intro _; simp [szV.szD, dumps.dumpsPairs, joinMembers]
      | cons p t ihD =>
        intro hsz
        obtain ⟨k, v⟩ := p
        cases t with
        | nil =>
          have h1 := IH v (hsz (k, v) (by simp))
          show 1 + szV v + szV.szD [] ≤
            (joinMembers [(k, dumps v)]).length + 1
          have hs := strChars_length k
          simp only [szV.szD, joinMembers, List.length_append, List.length_cons]
          omega
        | cons q t2 =>
          have h1 := IH v (hsz (k, v) (by simp))
          have h2 := ihD (fun z hz => hsz z (by simp at hz ⊢; tauto))
          have hs := strChars_length k
          show 1 + szV v + szV.szD (q :: t2) ≤
            (joinMembers ((k, dumps v) :: (q.1, dumps q.2) :: dumps.dumpsPairs t2)).length + 1
          rw [show joinMembers ((k, dumps v) :: (q.1, dumps q.2) :: dumps.dumpsPairs t2)
              = strChars k ++ ':' :: ' ' :: (dumps v ++ ',' :: ' '
                :: joinMembers ((q.1, dumps q.2) :: dumps.dumpsPairs t2)) from rfl]
          rw [show dumps.dumpsPairs (q :: t2) = (q.1, dumps q.2) :: dumps.dumpsPairs t2
              from by rw [dumpsPairs_eq_map, dumpsPairs_eq_map]; rfl] at h2
          simp only [List.length_append, List.length_cons] at h2 ⊢
          omega
    show 1 + szV.szD xs ≤ ('{' :: (joinMembers (sortByKey (dumps.dumpsPairs xs)) ++ ['}'])).length
    rw [dumpsPairs_eq_map, sortByKey_map, ← dumpsPairs_eq_map]
    have hperm : szV.szD (sortByKey xs) = szV.szD xs := szD_sortByKey xs
    have := hD (sortByKey xs) (fun p hp => sizeOf_lt_dict (mem_of_mem_sortByKey hp))
    simp only [List.length_cons, List.length_append]
    simp at this ⊢
    omega

theorem parseValue_ws (f : Nat) (c : Char) (s : List Char) (h : isWs c = true) :
    parseValue f (c :: s) = parseValue f s := by
  cases f with
  | zero => rfl
  | succ f =>
    simp only [parseValue]
    rw [show skipWs (c :: s) = skipWs s from by simp [skipWs, h]]

theorem parseElems_ws (f : Nat) (c : Char) (s : List Char) (h : isWs c = true) :
    parseElems f (c :: s) = parseElems f s := by
  cases f with
  | zero => rfl
  | succ f =>
    simp only [parseElems]
    rw [parseValue_ws f c s h]

theorem parseMembers_ws (f : Nat) (c : Char) (s : List Char) (h : isWs c = true) :
    parseMembers f (c :: s) = parseMembers f s := by
  cases f with
  | zero => rfl
  | succ f =>
    simp only [parseMembers]
    rw [show skipWs (c :: s) = skipWs s from by simp [skipWs, h]]

theorem parseElems_dumps (xs : List PyObj)
    (IH : ∀ x ∈ xs, ∀ (fuel : Nat) (rest : List Char), szV x ≤ fuel → NumBoundary rest →
      parseValue fuel (dumps x ++ rest) = some (canon x, rest)) :
    ∀ (fuel : Nat) (rest : List Char), xs ≠ [] → szV.szL xs ≤ fuel →
      parseElems fuel (dumps.dumpsList xs ++ (']' :: rest))
        = some (canon.canonList xs, rest) := by
  induction xs with
  | nil => intro fuel rest hne; exact absurd rfl hne
  | cons x t iht =>
    intro fuel rest _ hsz
    have hsz1 : 1 + szV x + szV.szL t ≤ fuel := hsz
    obtain ⟨f, rfl⟩ : ∃ f, fuel = f + 1 := ⟨fuel - 1, by omega⟩
    cases t with
    | nil =>
      show parseElems (f + 1) (dumps x ++ (']' :: rest)) = some ([canon x], rest)
      have hV := IH x (by simp) f (']' :: rest)
        (by simp only [szV.szL] at hsz1; omega)
        (show NumBoundary (']' :: rest) from ⟨by decide, by decide⟩)
      simp [parseElems, hV, skipWs, isWs]
    | cons y t2 =>
      show parseElems (f + 1)
        ((dumps x ++ ',' :: ' ' :: dumps.dumpsList (y :: t2)) ++ (']' :: rest)) = _
      rw [List.append_assoc]
      rw [show (',' :: ' ' :: dumps.dumpsList (y :: t2)) ++ (']' :: rest)
          = ',' :: ' ' :: (dumps.dumpsList (y :: t2) ++ (']' :: rest)) from rfl]
      have hV := IH x (by simp) f
        (',' :: ' ' :: (dumps.dumpsList (y :: t2) ++ (']' :: rest)))
        (by simp only [szV.szL] at hsz1; omega)
        (show NumBoundary (',' :: _) from ⟨by decide, by decide⟩)
      have hws : parseElems f (' ' :: (dumps.dumpsList (y :: t2) ++ (']' :: rest)))
          = parseElems f (dumps.dumpsList (y :: t2) ++ (']' :: rest)) :=
        parseElems_ws f ' ' _ (by decide)
      have hrec := iht (fun z hz => IH z (by simp [hz])) f rest (by simp)
        (by simp only [szV.szL] at hsz1 ⊢; omega)
      simp [parseElems, hV, skipWs, isWs, hws, hrec]
      rfl

theorem parseMembers_dumps (ms : List (String × PyObj))
    (IH : ∀ p ∈ ms, ∀ (fuel : Nat) (rest : List Char), szV p.2 ≤ fuel → NumBoundary rest →
      parseValue fuel (dumps p.2 ++ rest) = some (canon p.2, rest)) :
    ∀ (fuel : Nat) (rest : List Char), ms ≠ [] → szV.szD ms ≤ fuel →
      parseMembers fuel (joinMembers (dumps.dumpsPairs ms) ++ ('}' :: rest))
        = some (canon.canonPairs ms, rest) := by
  induction ms with
  | nil => intro fuel rest hne; exact absurd rfl hne
  | cons p t ihm =>
    obtain ⟨k, v⟩ := p
    intro fuel rest _ hsz
    have hsz1 : 1 + szV v + szV.szD t ≤ fuel := hsz
    obtain ⟨f, rfl⟩ : ∃ f, fuel = f + 1 := ⟨fuel - 1, by omega⟩
    cases t with
    | nil =>
      have hshape : joinMembers (dumps.dumpsPairs [(k, v)]) ++ ('}' :: rest)
          = '"' :: (escapeChars k.data
              ++ ('"' :: (':' :: ' ' :: (dumps v ++ '}' :: rest)))) := by
        show (strChars k ++ ':' :: ' ' :: dumps v) ++ '}' :: rest = _
        simp [strChars, List.append_assoc]
      rw [hshape]
      have hstr : parseStrBody
          ((escapeChars k.data ++ ('"' :: (':' :: ' ' :: (dumps v ++ '}' :: rest)))).length + 1)
          (escapeChars k.data ++ ('"' :: (':' :: ' ' :: (dumps v ++ '}' :: rest))))
          = some (k.data, ':' :: ' ' :: (dumps v ++ '}' :: rest)) :=
        parseStrBody_escape k.data _ _
          (by simp only [List.length_append, List.length_cons]; omega)
      have hws : parseValue f (' ' :: (dumps v ++ '}' :: rest))
          = parseValue f (dumps v ++ '}' :: rest) :=
        parseValue_ws f ' ' _ (by decide)
      have hV := IH (k, v) (by simp) f ('}' :: rest)
        (by show szV v ≤ f; simp only [szV.szD] at hsz1; omega)
        (show NumBoundary ('}' :: rest) from ⟨by decide, by decide⟩)
      simp only [] at hV
      simp only [parseMembers]
      rw [skipWs_not_ws '"' _ (by decide)]
      simp only [hstr]
      simp [skipWs, isWs, hws, hV, strMk_data]
      rfl
    | cons q t2 =>
      obtain ⟨k2, v2⟩ := q
      have hshape : joinMembers (dumps.dumpsPairs ((k, v) :: (k2, v2) :: t2)) ++ ('}' :: rest)
          = '"' :: (escapeChars k.data ++ ('"' :: (':' :: ' ' :: (dumps v ++ ',' :: ' '
              :: (joinMembers (dumps.dumpsPairs ((k2, v2) :: t2)) ++ ('}' :: rest)))))) := by
        show (strChars k ++ ':' :: ' ' :: (dumps v ++ ',' :: ' '
            :: joinMembers (dumps.dumpsPairs ((k2, v2) :: t2)))) ++ '}' :: rest = _
        simp [strChars, List.append_assoc]
      rw [hshape]
      have hstr : parseStrBody
          ((escapeChars k.data ++ ('"' :: (':' :: ' ' :: (dumps v ++ ',' :: ' '
              :: (joinMembers (dumps.dumpsPairs ((k2, v2) :: t2)) ++ ('}' :: rest)))))).length + 1)
          (escapeChars k.data ++ ('"' :: (':' :: ' ' :: (dumps v ++ ',' :: ' '
              :: (joinMembers (dumps.dumpsPairs ((k2, v2) :: t2)) ++ ('}' :: rest))))))
          = some (k.data, ':' :: ' ' :: (dumps v ++ ',' :: ' '
              :: (joinMembers (dumps.dumpsPairs ((k2, v2) :: t2)) ++ ('}' :: rest)))) :=
        parseStrBody_escape k.data _ _
          (by simp only [List.length_append, List.length_cons]; omega)
      have hws : parseValue f (' ' :: (dumps v ++ ',' :: ' '
            :: (joinMembers (dumps.dumpsPairs ((k2, v2) :: t2)) ++ ('}' :: rest))))
          = parseValue f (dumps v ++ ',' :: ' '
            :: (joinMembers (dumps.dumpsPairs ((k2, v2) :: t2)) ++ ('}' :: rest))) :=
        parseValue_ws f ' ' _ (by decide)
      have hV := IH (k, v) (by simp) f
        (',' :: ' ' :: (joinMembers (dumps.dumpsPairs ((k2, v2) :: t2)) ++ ('}' :: rest)))
        (by show szV v ≤ f; simp only [szV.szD] at hsz1; omega)
        (show NumBoundary (',' :: ' ' :: (joinMembers (dumps.dumpsPairs ((k2, v2) :: t2))
          ++ ('}' :: rest))) from ⟨by decide, by decide⟩)
      simp only [] at hV
      have hws2 : parseMembers f (' '
            :: (joinMembers (dumps.dumpsPairs ((k2, v2) :: t2)) ++ ('}' :: rest)))
          = parseMembers f (joinMembers (dumps.dumpsPairs ((k2, v2) :: t2)) ++ ('}' :: rest)) :=
        parseMembers_ws f ' ' _ (by decide)
      have hrec := ihm (fun z hz => IH z (by simp [hz])) f rest (by simp)
        (by simp only [szV.szD] at hsz1 ⊢; omega)
      simp only [parseMembers]
      rw [skipWs_not_ws '"' _ (by decide)]
      simp only [hstr]
      simp [skipWs, isWs, hws, hV, hws2, hrec, strMk_data]
      rfl

theorem parseValue_dumps : ∀ v : PyObj, wfNodup v = true →
    ∀ (fuel : Nat) (rest : List Char), szV v ≤ fuel → NumBoundary rest →
      parseValue fuel (dumps v ++ rest) = some (canon v, rest) := by
  apply sizeOfRec
  intro v IHsz hwf fuel rest hsz hb
  cases v with
  | none =>
    obtain ⟨f, rfl⟩ : ∃ f, fuel = f + 1 := ⟨fuel - 1, by
      have := szV_pos PyObj.none; omega⟩
    show parseValue (f + 1) ('n' :: 'u' :: 'l' :: 'l' :: rest) = some (PyObj.none, rest)
    simp only [parseValue]
    rw [skipWs_not_ws 'n' _ (by decide)]
    have hE : expectChars ['u', 'l', 'l'] ('u' :: 'l' :: 'l' :: rest) = some rest :=
      expectChars_append ['u', 'l', 'l'] rest
    simp [hE]
  | bool b =>
    obtain ⟨f, rfl⟩ : ∃ f, fuel = f + 1 := ⟨fuel - 1, by
      have := szV_pos (PyObj.bool b); omega⟩
    cases b with
    | true =>
      show parseValue (f + 1) ('t' :: 'r' :: 'u' :: 'e' :: rest) = some (PyObj.bool true, rest)
      simp only [parseValue]
      rw [skipWs_not_ws 't' _ (by decide)]
      have hE : expectChars ['r', 'u', 'e'] ('r' :: 'u' :: 'e' :: rest) = some rest :=
        expectChars_append ['r', 'u', 'e'] rest
      simp [hE]
    | false =>
      show parseValue (f + 1) ('f' :: 'a' :: 'l' :: 's' :: 'e' :: rest)
        = some (PyObj.bool false, rest)
      simp only [parseValue]
      rw [skipWs_not_ws 'f' _ (by decide)]
      have hE : expectChars ['a', 'l', 's', 'e'] ('a' :: 'l' :: 's' :: 'e' :: rest)
          = some rest :=
        expectChars_append ['a', 'l', 's', 'e'] rest
      simp [hE]
  | int n =>
    obtain ⟨f, rfl⟩ : ∃ f, fuel = f + 1 := ⟨fuel - 1, by
      have := szV_pos (PyObj.int n); omega⟩
    by_cases hneg : n < 0
    · have heq : dumps (.int n) = '-' :: natDigits n.natAbs := by
        show intChars n = _
        simp [intChars, hneg]
      rw [heq]
      show parseValue (f + 1) ('-' :: (natDigits n.natAbs ++ rest)) = some (canon (.int n), rest)
      simp only [parseValue]
      rw [skipWs_not_ws '-' _ (by decide)]
      have hP : parseNumber ('-' :: (natDigits n.natAbs ++ rest)) = some (n, rest) := by
        rw [show '-' :: (natDigits n.natAbs ++ rest) = intChars n ++ rest from by
          rw [show intChars n = '-' :: natDigits n.natAbs from heq]
          rfl]
        exact parseNumber_intChars n rest hb
      simp [hP, canon]
    · have heqI : intChars n = natDigits n.toNat := by simp [intChars, hneg]
      obtain ⟨d, t, hd, ht⟩ := natDigitsF_head (n.toNat + 1) n.toNat (by omega)
      have heq : dumps (.int n) = digitChar d :: t := by
        show intChars n = _
        rw [heqI]
        exact ht
      rw [heq]
      have hC : ∀ (e : Char), (e.toNat < 48 ∨ 57 < e.toNat) → ¬(digitChar d = e) := by
        intro e he hx
        have h2 := congrArg Char.toNat hx
        rw [digitChar_toNat hd] at h2
        omega
      have hws : isWs (digitChar d) = false := by
        simp only [isWs, Bool.or_eq_false_iff, decide_eq_false_iff_not]
        exact ⟨⟨⟨hC ' ' (by decide), hC (Char.ofNat 9) (by decide)⟩,
          hC (Char.ofNat 10) (by decide)⟩, hC (Char.ofNat 13) (by decide)⟩
      show parseValue (f + 1) (digitChar d :: (t ++ rest)) = some (canon (.int n), rest)
      simp only [parseValue]
      rw [skipWs_not_ws (digitChar d) _ hws]
      have hP : parseNumber (digitChar d :: (t ++ rest)) = some (n, rest) := by
        rw [show digitChar d :: (t ++ rest) = intChars n ++ rest from by
          rw [heqI]
          show _ = natDigits n.toNat ++ rest
          rw [show natDigits n.toNat = digitChar d :: t from ht]
          rfl]
        exact parseNumber_intChars n rest hb
      simp [hP, canon, hC '"' (by decide), hC 't' (by decide), hC 'f' (by decide),
        hC 'n' (by decide), hC '[' (by decide), hC '{' (by decide)]
  | str s =>
    obtain ⟨f, rfl⟩ : ∃ f, fuel = f + 1 := ⟨fuel - 1, by
      have := szV_pos (PyObj.str s); omega⟩
    have hshape : dumps (.str s) ++ rest = '"' :: (escapeChars s.data ++ ('"' :: rest)) := by
      show strChars s ++ rest = _
      simp [strChars, List.append_assoc]
    rw [hshape]
    simp only [parseValue]
    rw [skipWs_not_ws '"' _ (by decide)]
    have hstr : parseStrBody ((escapeChars s.data ++ ('"' :: rest)).length + 1)
        (escapeChars s.data ++ ('"' :: rest)) = some (s.data, rest) :=
      parseStrBody_escape s.data _ _
        (by simp only [List.length_append, List.length_cons]; omega)
    simp only [hstr]
    simp [strMk_data, canon]
  | list xs =>
    have hwfl : ∀ x ∈ xs, wfNodup x = true :=
      (wfNodupList_iff xs).mp hwf
    have hIH : ∀ x ∈ xs, ∀ (fuel : Nat) (rest : List Char), szV x ≤ fuel → NumBoundary rest →
        parseValue fuel (dumps x ++ rest) = some (canon x, rest) :=
      fun x hx => IHsz x (sizeOf_lt_list hx) (hwfl x hx)
    obtain ⟨f, rfl⟩ : ∃ f, fuel = f + 1 := ⟨fuel - 1, by
      have := szV_pos (PyObj.list xs); omega⟩
    have hszL : szV.szL xs ≤ f := by
      have h1 : 1 + szV.szL xs ≤ f + 1 := hsz
      omega
    cases xs with
    | nil =>
      show parseValue (f + 1) ('[' :: ']' :: rest) = some (PyObj.list [], rest)
      simp [parseValue, skipWs, isWs]
    | cons x t =>
      have hshape : dumps (.list (x :: t)) ++ rest
          = '[' :: (dumps.dumpsList (x :: t) ++ (']' :: rest)) := by
        show ('[' :: (dumps.dumpsList (x :: t) ++ [']'])) ++ rest = _
        simp [List.append_assoc]
      rw [hshape]
      obtain ⟨c0, t0, heq0, hg0⟩ := dumps_head x
      obtain ⟨t1, ht1⟩ : ∃ t1, dumps.dumpsList (x :: t) ++ (']' :: rest) = c0 :: t1 := by
        cases t with
        | nil =>
          refine ⟨t0 ++ (']' :: rest), ?_⟩
          rw [show dumps.dumpsList [x] = dumps x from rfl, heq0]
          rfl
        | cons y t2 =>
          refine ⟨(t0 ++ ',' :: ' ' :: dumps.dumpsList (y :: t2)) ++ (']' :: rest), ?_⟩
          rw [show dumps.dumpsList (x :: y :: t2)
              = dumps x ++ ',' :: ' ' :: dumps.dumpsList (y :: t2) from rfl, heq0]
          simp
      obtain ⟨hws0, hne1, hne2⟩ := goodHead_facts hg0
      have hElems := parseElems_dumps (x :: t) hIH f rest (by simp) hszL
      simp only [parseValue]
      rw [skipWs_not_ws '[' _ (by decide), ht1]
      simp only [skipWs_not_ws c0 t1 hws0]
      simp only [hne1, if_false]
      rw [← ht1, hElems]
      simp [canon]
  | dict xs =>
    have hkeys : (xs.map Prod.fst).Nodup ∧ ∀ p ∈ xs, wfNodup p.2 = true := by
      have h1 : (decide ((xs.map Prod.fst).Nodup) && wfNodup.wfNodupPairs xs) = true := hwf
      simp only [Bool.and_eq_true, decide_eq_true_eq] at h1
      exact ⟨h1.1, (wfNodupPairs_iff xs).mp h1.2⟩
    obtain ⟨f, rfl⟩ : ∃ f, fuel = f + 1 := ⟨fuel - 1, by
      have := szV_pos (PyObj.dict xs); omega⟩
    have hszD : szV.szD xs ≤ f := by
      have h1 : 1 + szV.szD xs ≤ f + 1 := hsz
      omega
    cases xs with
    | nil =>
      show parseValue (f + 1) ('\x7b' :: '\x7d' :: rest) = some (PyObj.dict [], rest)
      simp [parseValue, skipWs, isWs]
    | cons p t =>
      have hMeq : sortByKey (dumps.dumpsPairs (p :: t)) = dumps.dumpsPairs (sortByKey (p :: t)) := by
        rw [dumpsPairs_eq_map, sortByKey_map, ← dumpsPairs_eq_map]
      have hperm : (sortByKey (p :: t)).Perm (p :: t) := List.perm_insertionSort keyLe (p :: t)
      obtain ⟨m, mt, hm⟩ : ∃ m mt, sortByKey (p :: t) = m :: mt := by
        cases hx : sortByKey (p :: t) with
        | nil =>
          have hlen := hperm.length_eq
          rw [hx] at hlen
          simp at hlen
        | cons m mt => exact ⟨m, mt, rfl⟩
      obtain ⟨jt, hjt⟩ : ∃ jt, joinMembers (dumps.dumpsPairs (sortByKey (p :: t)))
          = '"' :: jt := by
        rw [hm]
        cases mt with
        | nil =>
          refine ⟨(escapeChars m.1.data ++ ['"']) ++ (':' :: ' ' :: dumps m.2), ?_⟩
          rw [show dumps.dumpsPairs [m] = [(m.1, dumps m.2)] from by
            rw [dumpsPairs_eq_map]; rfl]
          rw [show joinMembers [(m.1, dumps m.2)]
              = strChars m.1 ++ ':' :: ' ' :: dumps m.2 from rfl]
          rfl
        | cons q mt2 =>
          refine ⟨(escapeChars m.1.data ++ ['"']) ++ (':' :: ' '
            :: (dumps m.2 ++ ',' :: ' '
              :: joinMembers ((q.1, dumps q.2) :: dumps.dumpsPairs mt2))), ?_⟩
          rw [show dumps.dumpsPairs (m :: q :: mt2)
              = (m.1, dumps m.2) :: (q.1, dumps q.2) :: dumps.dumpsPairs mt2 from by
            rw [dumpsPairs_eq_map, dumpsPairs_eq_map]; rfl]
          rw [show joinMembers ((m.1, dumps m.2) :: (q.1, dumps q.2) :: dumps.dumpsPairs mt2)
              = strChars m.1 ++ ':' :: ' '
                :: (dumps m.2 ++ ',' :: ' '
                  :: joinMembers ((q.1, dumps q.2) :: dumps.dumpsPairs mt2)) from rfl]
          rfl
      have hIHm : ∀ q ∈ sortByKey (p :: t), ∀ (fuel : Nat) (rest : List Char),
          szV q.2 ≤ fuel → NumBoundary rest →
          parseValue fuel (dumps q.2 ++ rest) = some (canon q.2, rest) :=
        fun q hq => IHsz q.2 (sizeOf_lt_dict (mem_of_mem_sortByKey hq))
          (hkeys.2 q (mem_of_mem_sortByKey hq))
      have hMem := parseMembers_dumps (sortByKey (p :: t)) hIHm f rest
        (by rw [hm]; simp) (by rw [szD_sortByKey]; exact hszD)
      have hshape : dumps (.dict (p :: t)) ++ rest
          = '\x7b' :: (joinMembers (dumps.dumpsPairs (sortByKey (p :: t)))
              ++ ('\x7d' :: rest)) := by
        show ('\x7b' :: (joinMembers (sortByKey (dumps.dumpsPairs (p :: t))) ++ ['\x7d'])) ++ rest
          = _
        rw [hMeq]
        simp [List.append_assoc]
      rw [hshape]
      simp only [parseValue]
      rw [skipWs_not_ws '\x7b' _ (by decide), hjt]
      rw [show ('"' :: jt) ++ ('\x7d' :: rest) = '"' :: (jt ++ ('\x7d' :: rest)) from rfl]
      simp only [skipWs_not_ws '"' (jt ++ ('\x7d' :: rest)) (by decide)]
      rw [show ('"' : Char) :: (jt ++ ('\x7d' :: rest)) = ('"' :: jt) ++ ('\x7d' :: rest) from rfl,
        ← hjt, hMem]
      have hbd : buildDict (canon.canonPairs (sortByKey (p :: t)))
          = canon.canonPairs (sortByKey (p :: t)) := by
        apply buildDict_nodup
        rw [canonPairs_eq_map, keys_of_map_snd]
        exact (hperm.map Prod.fst).nodup_iff.mpr hkeys.1
      have hcanon : canon (PyObj.dict (p :: t))
          = PyObj.dict (canon.canonPairs (sortByKey (p :: t))) := by
        show PyObj.dict (sortByKey (canon.canonPairs (p :: t))) = _
        rw [canonPairs_eq_map, sortByKey_map, ← canonPairs_eq_map]
      rw [hcanon]
      simp [hbd]

theorem loads_dumps (v : PyObj) (h : wfNodup v = true) :
    loads (dumpsStr v) = some (canon v) := by
  have hV := parseValue_dumps v h ((dumps v).length + 1) []
    (by have := szV_le_dumps_length v; omega) trivial
  rw [List.append_nil] at hV
  simp only [loads, dumpsStr]
  rw [show (String.mk (dumps v)).length = (dumps v).length from rfl]
  rw [hV]
  simp [skipWs]

theorem strAscending_of_pairwise : ∀ (ys : List (String × PyObj)),
    List.Pairwise keyLe ys → strAscending (ys.map Prod.fst) = true := by
  intro ys
  induction ys with
  | nil => intro _; rfl
  | cons a t ih =>
    intro h
    rw [List.pairwise_cons] at h
    cases t with
    | nil => rfl
    | cons b t2 =>
      show (strLe a.1 b.1 && strAscending ((b :: t2).map Prod.fst)) = true
      rw [ih h.2]
      have hab : strLe a.1 b.1 = true := h.1 b (by simp)
      simp [hab]

theorem canon_keysSorted : ∀ v : PyObj, keysSorted (canon v) = true := by
  apply sizeOfRec
  intro v IH
  cases v with
  | none => rfl
  | bool b => rfl
  | int n => rfl
  | str s => rfl
  | list xs =>
    show keysSorted.keysSortedList (canon.canonList xs) = true
    rw [keysSortedList_iff]
    intro y hy
    rw [canonList_eq_map] at hy
    obtain ⟨x, hx, rfl⟩ := List.mem_map.mp hy
    exact IH x (sizeOf_lt_list hx)
  | dict xs =>
    show (strAscending ((sortByKey (canon.canonPairs xs)).map Prod.fst)
      && keysSorted.keysSortedPairs (sortByKey (canon.canonPairs xs))) = true
    rw [Bool.and_eq_true]
    constructor
    · exact strAscending_of_pairwise _ (List.sorted_insertionSort keyLe _)
    · rw [keysSortedPairs_iff]
      intro p hp
      have hp2 := mem_of_mem_sortByKey hp
      rw [canonPairs_eq_map] at hp2
      obtain ⟨q, hq, rfl⟩ := List.mem_map.mp hp2
      exact IH q.2 (sizeOf_lt_dict hq)

theorem pyBeqList_refl (xs : List PyObj) (h : ∀ x ∈ xs, pyBeq x x = true) :
    pyBeq.pyBeqList xs xs = true := by
  induction xs with
  | nil => rfl
  | cons x t ih =>
    show (pyBeq x x && pyBeq.pyBeqList t t) = true
    rw [h x (by simp), ih (fun z hz => h z (by simp [hz]))]
    rfl

theorem pyBeqPairs_refl (xs : List (String × PyObj)) (h : ∀ p ∈ xs, pyBeq p.2 p.2 = true) :
    pyBeq.pyBeqPairs xs xs = true := by
  induction xs with
  | nil => rfl
  | cons p t ih =>
    obtain ⟨k, v⟩ := p
    show (k == k && pyBeq v v && pyBeq.pyBeqPairs t t) = true
    rw [h (k, v) (by simp), ih (fun z hz => h z (by simp [hz]))]
    simp

theorem pyBeq_refl : ∀ a : PyObj, pyBeq a a = true := by
  apply sizeOfRec
  intro a IH
  cases a with
  | none => rfl
  | bool b => simp [pyBeq]
  | int n => simp [pyBeq]
  | str s => simp [pyBeq]
  | list xs =>
    show pyBeq.pyBeqList xs xs = true
    exact pyBeqList_refl xs (fun x hx => IH x (sizeOf_lt_list hx))
  | dict xs =>
    show pyBeq.pyBeqPairs xs xs = true
    exact pyBeqPairs_refl xs (fun p hp => IH p.2 (sizeOf_lt_dict hp))

theorem canon_canon : ∀ v : PyObj, canon (canon v) = canon v := by
  apply sizeOfRec
  intro v IH
  cases v with
  | none => rfl
  | bool b => rfl
  | int n => rfl
  | str s => rfl
  | list xs =>
    show PyObj.list (canon.canonList (canon.canonList xs)) = PyObj.list (canon.canonList xs)
    congr 1
    rw [canonList_eq_map, canonList_eq_map, List.map_map]
    apply List.map_congr_left
    intro x hx
    show canon (canon x) = canon x
    exact IH x (sizeOf_lt_list hx)
  | dict xs =>
    show PyObj.dict (sortByKey (canon.canonPairs (sortByKey (canon.canonPairs xs))))
      = PyObj.dict (sortByKey (canon.canonPairs xs))
    congr 1
    have h1 : canon.canonPairs (sortByKey (canon.canonPairs xs))
        = sortByKey (canon.canonPairs xs) := by
      rw [canonPairs_eq_map]
      conv_rhs => rw [← List.map_id (sortByKey (canon.canonPairs xs))]
      apply List.map_congr_left
      intro p hp
      have hp2 := mem_of_mem_sortByKey hp
      rw [canonPairs_eq_map] at hp2
      obtain ⟨q, hq, rfl⟩ := List.mem_map.mp hp2
      show ((q.1, canon (canon q.2)) : String × PyObj) = id (q.1, canon q.2)
      rw [IH q.2 (sizeOf_lt_dict hq)]
      rfl
    rw [h1]
    exact List.Sorted.insertionSort_eq (List.sorted_insertionSort keyLe _)

theorem dumpsStr_ne_empty (v : PyObj) : dumpsStr v ≠ "" := by
  obtain ⟨c, t, heq, _⟩ := dumps_head v
  unfold dumpsStr
  rw [heq]
  intro hx
  have := congrArg String.data hx
  simp at this

/-- C5: for every JSON-serializable value `v` (a duplicate-free-keys
`PyObj`) and every key, writing `v` through a writeable JSON view succeeds,
stores `json.dumps(v, sort_keys=True)` in the underlying raw view, and
reading the key back before flush returns the key-sorted canonical form of
`v`, which is Python-equal to `v`; when `v` is a mapping the serialized text
lists its keys in ascending sorted order. -/
theorem C5_json_roundtrip (st : UnitDataView) (k : String) (v : PyObj)
    (hw : st.writeable = true) (hwf : wfNodup v = true) :
    (jsonSetItem st k v).raised = false ∧
    UnitDataView.getItem (jsonSetItem st k v).st k = some (dumpsStr v) ∧
    jsonGetItem (jsonSetItem st k v).st k = canon v ∧
    pyEqv (jsonGetItem (jsonSetItem st k v).st k) v = true ∧
    keysSorted (jsonGetItem (jsonSetItem st k v).st k) = true ∧
    ∀ xs, v = PyObj.dict xs →
      dumpsStr v
        = String.mk ('\x7b' :: (joinMembers (dumps.dumpsPairs (sortByKey xs)) ++ ['\x7d'])) ∧
      strAscending ((sortByKey xs).map Prod.fst) = true := by
  have hset : jsonSetItem st k v
      = ⟨false, { st with modified := true, data := rawInsert st.data k (dumpsStr v) }⟩ := by
    unfold jsonSetItem UnitDataView.setItem
    rw [hw]
    simp
  have hget : UnitDataView.getItem (jsonSetItem st k v).st k = some (dumpsStr v) := by
    rw [hset]
    show rawLookup (rawInsert st.data k (dumpsStr v)) k = some (dumpsStr v)
    rw [rawLookup_rawInsert]
    simp
  have hjson : jsonGetItem (jsonSetItem st k v).st k = canon v := by
    simp only [jsonGetItem, hget]
    rw [if_neg (dumpsStr_ne_empty v)]
    rw [loads_dumps v hwf]
  refine ⟨by rw [hset], hget, hjson, ?_, ?_, ?_⟩
  · rw [hjson]
    unfold pyEqv
    rw [canon_canon]
    exact pyBeq_refl (canon v)
  · rw [hjson]
    exact canon_keysSorted v
  · intro xs hxs
    subst hxs
    constructor
    · unfold dumpsStr
      congr 1
      show '\x7b' :: (joinMembers (sortByKey (dumps.dumpsPairs xs)) ++ ['\x7d']) = _
      rw [dumpsPairs_eq_map, sortByKey_map, ← dumpsPairs_eq_map]
    · exact strAscending_of_pairwise _ (List.sorted_insertionSort keyLe _)

/-- Witness for C5: a concrete mapping with unsorted keys round-trips
through a fresh writeable view to its key-sorted equal form. -/
theorem C5_json_roundtrip_witness :
    (mkUnitDataView [] true).writeable = true ∧
    wfNodup (PyObj.dict [("b", PyObj.int 10),
      ("a", PyObj.list [PyObj.none, PyObj.str "x"])]) = true ∧
    jsonGetItem (jsonSetItem (mkUnitDataView [] true) "cfg"
        (PyObj.dict [("b", PyObj.int 10),
          ("a", PyObj.list [PyObj.none, PyObj.str "x"])])).st "cfg"
      = PyObj.dict [("a", PyObj.list [PyObj.none, PyObj.str "x"]), ("b", PyObj.int 10)] ∧
    pyEqv (jsonGetItem (jsonSetItem (mkUnitDataView [] true) "cfg"
        (PyObj.dict [("b", PyObj.int 10),
          ("a", PyObj.list [PyObj.none, PyObj.str "x"])])).st "cfg")
      (PyObj.dict [("b", PyObj.int 10),
        ("a", PyObj.list [PyObj.none, PyObj.str "x"])]) = true :=
  ⟨rfl, rfl,
    (C5_json_roundtrip (mkUnitDataView [] true) "cfg"
      (PyObj.dict [("b", PyObj.int 10),
        ("a", PyObj.list [PyObj.none, PyObj.str "x"])]) rfl rfl).2.2.1,
    (C5_json_roundtrip (mkUnitDataView [] true) "cfg"
      (PyObj.dict [("b", PyObj.int 10),
        ("a", PyObj.list [PyObj.none, PyObj.str "x"])]) rfl rfl).2.2.2.1⟩

end CharmsReactive
